import Mathlib

/-!
# ICPCUDA: the odometry driver `ICP.cpp`

A shallow embedding of `src/ICP.cpp`: the manifest reader (`tokenize`,
`loadDepth`), the launch-configuration sweep and the tracking loop of `main`,
followed by the properties proved about them.

Conventions of the embedding.

* `std::string` is `List Char`; `std::string::npos` is `none`.
* `std::ifstream asFile` is the unread text together with its `eofbit` and
  `failbit`.
* `Sophus::SE3d` poses are elements of a group `G`.
* Everything reached through `ICPOdometry.h`, pangolin, the clock and the
  `float` arithmetic of the latency mean is a field of `Platform`.
* The `double` arithmetic of `outputFreiburg` is computed over `ℚ`, each
  operation rounded to the nearest binary64 number, ties to even.
* Loops whose trip count depends on the input take a fuel argument and report
  `Outcome.outOfFuel` when it is used up.
-/

namespace ICPCUDA

/-! ## Strings and the manifest stream -/

/-- The type `std::string`. -/
abbrev Str := List Char

/-- How a run of (a part of) the program ends. -/
inductive Outcome (α : Type) where
  /-- The code ran to its end and produced `a`. -/
  | done (a : α) : Outcome α
  /-- The code indexed a `std::vector` out of range. -/
  | undefined : Outcome α
  /-- The code left by an uncaught exception. -/
  | aborted : Outcome α
  /-- The loop had not finished when the fuel was used up. -/
  | outOfFuel : Outcome α

/-- Sequencing of outcomes. -/
def Outcome.bind {α β : Type} (x : Outcome α) (f : α → Outcome β) : Outcome β :=
  match x with
  | .done a => f a
  | .undefined => .undefined
  | .aborted => .aborted
  | .outOfFuel => .outOfFuel

/-- The state of `std::ifstream asFile`: the characters not yet read and two
of the state bits. -/
structure IStream where
  rest : Str
  eofbit : Bool
  failbit : Bool
deriving DecidableEq

/-- The member `asFile.eof()`. -/
def IStream.eof (s : IStream) : Bool := s.eofbit

/-- The member `asFile.good()`. -/
def IStream.good (s : IStream) : Bool := !s.eofbit && !s.failbit

/-- Characters up to the first newline, and what follows that newline
(`none` when the text ends before a newline is met). -/
def readLine : Str → Str × Option Str
  | [] => ([], none)
  | c :: cs =>
    if c = '\n' then ([], some cs)
    else ((c :: (readLine cs).1), (readLine cs).2)

/-- The call `getline(asFile, str)`.  When the stream is not good the sentry
fails: `failbit` is set and `str` is left as it was.  Otherwise `str` is
erased and filled up to the next newline, which is consumed; reaching the end
of the text sets `eofbit`, and `failbit` too when nothing at all was read. -/
def getline (asFile : IStream) (str : Str) : IStream × Str :=
  if asFile.good then
    match asFile.rest with
    | [] => ({ rest := [], eofbit := true, failbit := true }, [])
    | c :: cs =>
      match readLine (c :: cs) with
      | (line, some rest) => ({ rest := rest, eofbit := false, failbit := false }, line)
      | (line, none) => ({ rest := [], eofbit := true, failbit := false }, line)
  else ({ asFile with failbit := true }, str)

/-- Index of the first element of `str` satisfying `p`, counted from `i`. -/
def findIdxFrom (p : Char → Bool) : Str → Nat → Option Nat
  | [], _ => none
  | c :: cs, i => if p c then some i else findIdxFrom p cs (i + 1)

/-- The member `str.find_first_not_of(delimiters, pos)`. -/
def find_first_not_of (str delimiters : Str) (pos : Option Nat) : Option Nat :=
  match pos with
  | none => none
  | some k => findIdxFrom (fun c => !delimiters.contains c) (str.drop k) k

/-- The member `str.find_first_of(delimiters, pos)`. -/
def find_first_of (str delimiters : Str) (pos : Option Nat) : Option Nat :=
  match pos with
  | none => none
  | some k => findIdxFrom (fun c => delimiters.contains c) (str.drop k) k

/-- The call `str.substr(lastPos, pos - lastPos)`; with `pos = npos` the count
exceeds the length and the substring runs to the end of `str`. -/
def substr (str : Str) (lastPos : Nat) (pos : Option Nat) : Str :=
  match pos with
  | none => str.drop lastPos
  | some p => (str.drop lastPos).take (p - lastPos)

/-- The `while` loop of `tokenize`.  `pos` is always
`find_first_of(delimiters, lastPos)`, so it is recomputed from `lastPos`
instead of being carried along; it is `npos` when `lastPos` is, so the test
`npos != pos || npos != lastPos` is the test `npos != lastPos`. -/
def tokenizeLoop (str delimiters : Str) : Nat → Option Nat → List Str → List Str
  | 0, _, tokens => tokens
  | fuel + 1, lastPos, tokens =>
    match lastPos with
    | none => tokens
    | some l =>
      let pos := find_first_of str delimiters (some l)
      tokenizeLoop str delimiters fuel (find_first_not_of str delimiters pos)
        (tokens ++ [substr str l pos])

/-- The function `tokenize(str, tokens, delimiters)`; the result is the final
value of `tokens`.  Every turn of the loop moves `lastPos` forward, so
`str.length + 1` turns are never used up (`tokenizeLoop_fuel`). -/
def tokenize (str : Str) (delimiters : Str := [' ']) : List Str :=
  tokenizeLoop str delimiters (str.length + 1) (find_first_not_of str delimiters (some 0)) []

/-- The test `std::isspace` in the C locale. -/
def isspace (c : Char) : Bool :=
  c = ' ' || c = '\t' || c = '\n' || c = '\x0b' || c = '\x0c' || c = '\r'

/-- Value of a decimal digit. -/
def digitVal (c : Char) : Nat := c.toNat - '0'.toNat

/-- Value of a string of decimal digits, most significant first. -/
def decimalValue (s : Str) : Nat := s.foldl (fun acc c => 10 * acc + digitVal c) 0

/-- The digits and the sign read by `operator>>` once white space is skipped. -/
def numberField (s : Str) : Bool × Str :=
  match s with
  | '-' :: cs => (true, cs.takeWhile Char.isDigit)
  | '+' :: cs => (false, cs.takeWhile Char.isDigit)
  | cs => (false, cs.takeWhile Char.isDigit)

/-- The statement `std::istringstream(timeString) >> time` for a
`uint64_t time` (C++11 `num_get`): leading white space is skipped, an optional
sign and the longest run of digits are read; no digit stores 0, a value that
does not fit stores the largest `uint64_t`, a minus sign negates modulo
`2^64`. -/
def extractUInt64 (timeString : Str) : Nat :=
  match numberField (timeString.dropWhile isspace) with
  | (_, []) => 0
  | (negative, digits) =>
    let v := decimalValue digits
    if 2 ^ 64 ≤ v then 2 ^ 64 - 1
    else if negative then (2 ^ 64 - v) % 2 ^ 64
    else v

/-! ## The external collaborators -/

/-- Everything `ICP.cpp` reaches outside itself.
* `σ` is the state of the `ICPOdometry` object, `Img` a depth image, `G` the
  poses, `α` the values of `float`.
* `getIncrementalTransformation s T threads blocks` returns the new state of
  the object and the value left in the reference argument `T`.
* `LoadImage path` is the decoded image copied by the pixel loop of
  `loadDepth` (`DEPTH_FACTOR` is 1), or `none` when pangolin throws.
* `getCurrTime n` is the reading returned by the call number `n` to
  `getCurrTime()`.
* `meanUpdate count mean elapsed` is the `float` expression
  `(float(count) * mean + elapsed / 1000.0f) / float(count + 1)`, `zero` is
  `0.0f` and `fltMax` is `std::numeric_limits<float>::max()`.  Where means
  are compared, `α` is linearly ordered: the expression never yields a NaN. -/
structure Platform (σ Img G α : Type) where
  ICPOdometry : σ
  initICPModel : σ → Img → σ
  initICP : σ → Img → σ
  getIncrementalTransformation : σ → G → Nat → Nat → σ × G
  LoadImage : Str → Option Img
  uninit : Img
  getCurrTime : Nat → Nat
  fltMax : α
  zero : α
  meanUpdate : Nat → α → Nat → α

/-! ## `loadDepth` -/

/-- The `do ... while (tokens.size() > 2)` loop of `loadDepth`; the result is
the stream and `tokens` on leaving the loop. -/
def loadDepthLoop : Nat → IStream → Str → Outcome (IStream × List Str)
  | 0, _, _ => .outOfFuel
  | fuel + 1, asFile, currentLine =>
    let r := getline asFile currentLine
    let tokens := tokenize r.2
    if tokens.length > 2 then loadDepthLoop fuel r.1 r.2
    else .done (r.1, tokens)

/-- The function `loadDepth(depth)`.  `depth` is the content of the buffer the
argument refers to; the result is the stream afterwards, the new content of
that buffer and the returned `uint64_t`. -/
def loadDepth {σ Img G α : Type} (P : Platform σ Img G α) (directory : Str) (fuel : Nat)
    (asFile : IStream) (depth : Img) : Outcome (IStream × Img × Nat) :=
  (loadDepthLoop fuel asFile []).bind fun r =>
    match r.2 with
    | [] => .done (r.1, depth, 0)
    | [_] => .undefined
    | tokens0 :: tokens1 :: _ =>
      match P.LoadImage (directory ++ tokens1) with
      | none => .aborted
      | some depthRaw =>
        match tokenize tokens0 ['.'] with
        | timeTokens0 :: timeTokens1 :: _ =>
          .done (r.1, depthRaw, extractUInt64 (timeTokens0 ++ timeTokens1))
        | _ => .undefined

/-- Rounding to the nearest integer, a tie going to the even one. -/
def roundHalfEven (y : ℚ) : ℤ :=
  if y - ⌊y⌋ < 1 / 2 then ⌊y⌋
  else if 1 / 2 < y - ⌊y⌋ then ⌊y⌋ + 1
  else if ⌊y⌋ % 2 = 0 then ⌊y⌋ else ⌊y⌋ + 1

/-- The `double` nearest to a non-negative number `x` (IEEE 754 binary64,
round to nearest, ties to even): `x` is rounded to a multiple of
`2 ^ (e - 52)`, where `2 ^ e ≤ x < 2 ^ (e + 1)`.  The numbers met here lie
between `10 ^ (-6)` and `2 ^ 64`, far from the subnormal range and from
overflow. -/
def toDouble (x : ℚ) : ℚ :=
  if x = 0 then 0
  else (roundHalfEven (x / 2 ^ (Int.log 2 x - 52)) : ℚ) * 2 ^ (Int.log 2 x - 52)

/-- The number printed by line 82 of `outputFreiburg`, that is by
`strs << std::setprecision(6) << std::fixed << (double)timestamp / 1000000.0`:
`timestamp` is converted to `double`, the quotient by the double `1000000.0`
is rounded to a `double`, and that value is printed rounded to six
decimals. -/
def outputSeconds (timestamp : Nat) : ℚ :=
  (roundHalfEven (toDouble (toDouble timestamp / 1000000) * 10 ^ 6) : ℚ) / 10 ^ 6

/-- The function `outputFreiburg(filename, timestamp, currentPose)` on the
content of the trajectory file, one entry per line: the line appended holds
the time stamp, printed as `outputSeconds`, and the pose, printed as a
translation and a quaternion (the formatting of the pose is not modelled). -/
def outputFreiburg {G : Type} (file : List (Nat × G)) (timestamp : Nat) (currentPose : G) :
    List (Nat × G) :=
  file ++ [(timestamp, currentPose)]

/-! ## The state of `main` -/

/-- The two `ManagedImage` allocations `firstData` and `secondData`. -/
inductive Slot where
  | first : Slot
  | second : Slot
deriving DecidableEq

/-- One invocation of the alignment primitive, as seen by the caller. -/
structure Step (Img G : Type) where
  /-- The allocation `firstRaw.ptr` points into. -/
  modelSlot : Slot
  /-- The allocation `secondRaw.ptr` points into. -/
  obsSlot : Slot
  /-- The image handed to `initICPModel`. -/
  model : Img
  /-- The image handed to `initICP`. -/
  obs : Img
  /-- The pose `T_wc_prev` after `T_wc_prev = T_wc_curr`. -/
  T_wc_prev : G
  /-- The value of `T_prev_curr` passed to the primitive. -/
  guess : G
  /-- The value the primitive left in `T_prev_curr`. -/
  T_prev_curr : G
  /-- The pose `T_wc_curr` after `T_wc_curr = T_wc_prev * T_prev_curr`. -/
  T_wc_curr : G
  threads : Nat
  blocks : Nat
  /-- The variable `timestamp` during the step. -/
  timestamp : Nat

/-- The local variables of `main`, and a record of what it did: the lines
written to `icpcuda_traj.txt`, the primitive invocations of the sweep and of
the tracking loop, and the mean latency measured for each candidate.  The
global `asFile` is kept apart.  `clock` counts the calls to `getCurrTime`.
The `int count` only feeds the running mean; its wrap-around after `2^31`
cycles is not modelled. -/
structure MainState (σ Img G α : Type) where
  firstData : Img
  secondData : Img
  firstRaw : Slot
  secondRaw : Slot
  icpOdom : σ
  clock : Nat
  timestamp : Nat
  T_wc_prev : G
  T_wc_curr : G
  mean : α
  count : Nat
  threads : Nat
  blocks : Nat
  bestThreads : Nat
  bestBlocks : Nat
  best : α
  file : List (Nat × G)
  tuneCalls : List (Step Img G)
  cycles : List (Step Img G)
  sweep : List (Nat × Nat × α)

section Main

variable {σ Img G α : Type}

/-- The image a view points at. -/
def MainState.deref (st : MainState σ Img G α) : Slot → Img
  | .first => st.firstData
  | .second => st.secondData

/-- Overwrite the image a view points at. -/
def MainState.store (st : MainState σ Img G α) (v : Slot) (img : Img) : MainState σ Img G α :=
  match v with
  | .first => { st with firstData := img }
  | .second => { st with secondData := img }

/-- The call `loadDepth(view)`: the stream and the buffer behind `view` are
updated; the returned time is the last component. -/
def MainState.load (P : Platform σ Img G α) (directory : Str) (fuel : Nat)
    (asFile : IStream) (st : MainState σ Img G α) (view : Slot) :
    Outcome (IStream × MainState σ Img G α × Nat) :=
  (loadDepth P directory fuel asFile (st.deref view)).bind fun r =>
    .done (r.1, st.store view r.2.1, r.2.2)

/-- Lines 180-197 and, identically, 229-245: the two `init` calls, the pose
update around the primitive, and the update of the running mean.  The second
component describes the invocation. -/
def alignStep [Group G] (P : Platform σ Img G α) (st : MainState σ Img G α) :
    MainState σ Img G α × Step Img G :=
  let icp := P.initICPModel st.icpOdom (st.deref st.firstRaw)
  let icp := P.initICP icp (st.deref st.secondRaw)
  let tick := P.getCurrTime st.clock % 2 ^ 64
  let T_wc_prev := st.T_wc_curr
  let guess := T_wc_prev⁻¹ * st.T_wc_curr
  let r := P.getIncrementalTransformation icp guess st.threads st.blocks
  let T_wc_curr := T_wc_prev * r.2
  let tock := P.getCurrTime (st.clock + 1) % 2 ^ 64
  let mean := P.meanUpdate st.count st.mean ((tock + 2 ^ 64 - tick) % 2 ^ 64)
  ({ st with
      icpOdom := r.1, clock := st.clock + 2, T_wc_prev := T_wc_prev,
      T_wc_curr := T_wc_curr, mean := mean, count := st.count + 1 },
   { modelSlot := st.firstRaw, obsSlot := st.secondRaw,
     model := st.deref st.firstRaw, obs := st.deref st.secondRaw,
     T_wc_prev := T_wc_prev, guess := guess, T_prev_curr := r.2,
     T_wc_curr := T_wc_curr, threads := st.threads, blocks := st.blocks,
     timestamp := st.timestamp })

/-! ## The launch-configuration sweep -/

/-- A loop `for (i = start; cond(i); i += step) body`. -/
def forLoop {S : Type} (cond : Nat → Bool) (step : Nat) (body : Nat → S → S) :
    Nat → Nat → S → S
  | 0, _, s => s
  | fuel + 1, i, s =>
    if cond i then forLoop cond step body fuel (i + step) (body i s) else s

/-- One repetition of the benchmark (lines 180-197). -/
def tuneRep [Group G] (P : Platform σ Img G α) (st : MainState σ Img G α) :
    MainState σ Img G α :=
  let r := alignStep P st
  { r.1 with tuneCalls := r.1.tuneCalls ++ [r.2] }

/-- The body of the inner `for` loop (lines 176-211) for one candidate. -/
def tuneCandidate [Group G] [LinearOrder α] (P : Platform σ Img G α) (blocks : Nat)
    (st : MainState σ Img G α) : MainState σ Img G α :=
  let st := { st with blocks := blocks, mean := P.zero, count := 0 }
  let st := forLoop (fun i => i < 5) 1 (fun _ s => tuneRep P s) 6 0 st
  let st := { st with sweep := st.sweep ++ [(st.threads, st.blocks, st.mean)] }
  if st.mean < st.best then
    { st with best := st.mean, bestThreads := st.threads, bestBlocks := st.blocks }
  else st

/-- The two nested `for` loops of lines 174-213.  The values the loop variables
`threads` and `blocks` are left with are not kept: lines 219-220 overwrite
both before they are read again. -/
def tune [Group G] [LinearOrder α] (P : Platform σ Img G α) (st : MainState σ Img G α) :
    MainState σ Img G α :=
  forLoop (fun threads => threads ≤ 512) 16
    (fun threads s =>
      forLoop (fun blocks => blocks ≤ 512) 16 (fun blocks s => tuneCandidate P blocks s)
        33 16 { s with threads := threads })
    33 16 st

/-- Lines 151-223: the defaults, the sweep when the second argument is `-v`,
and the choice of the configuration used for tracking. -/
def tuningBlock [Group G] [LinearOrder α] (P : Platform σ Img G α) (argv2 : Option Str)
    (st : MainState σ Img G α) : MainState σ Img G α :=
  let st := { st with
    mean := P.fltMax, count := 0, threads := 224, blocks := 96,
    bestThreads := 224, bestBlocks := 96, best := P.fltMax }
  let st := if argv2 = some ['-', 'v'] then tune P st else st
  { st with threads := st.bestThreads, blocks := st.bestBlocks, mean := P.zero, count := 0 }

/-! ## The tracking loop -/

/-- Lines 229-253 of the `while` loop: alignment, swap of the two views, and
the line appended to the trajectory file. -/
def trackStep [Group G] (P : Platform σ Img G α) (st : MainState σ Img G α) :
    MainState σ Img G α :=
  let r := alignStep P st
  let st := { r.1 with cycles := r.1.cycles ++ [r.2] }
  let st := { st with firstRaw := st.secondRaw, secondRaw := st.firstRaw }
  { st with file := outputFreiburg st.file st.timestamp st.T_wc_curr }

/-- One turn of the `while` loop of lines 228-256. -/
def trackCycle [Group G] (P : Platform σ Img G α) (directory : Str) (lineFuel : Nat)
    (asFile : IStream) (st : MainState σ Img G α) :
    Outcome (IStream × MainState σ Img G α) :=
  let st := trackStep P st
  (st.load P directory lineFuel asFile st.secondRaw).bind fun r =>
    .done (r.1, { r.2.1 with timestamp := r.2.2 })

/-- The loop `while (!asFile.eof())` of lines 228-256. -/
def trackingLoop [Group G] (P : Platform σ Img G α) (directory : Str) (lineFuel : Nat) :
    Nat → IStream → MainState σ Img G α → Outcome (IStream × MainState σ Img G α)
  | 0, _, _ => .outOfFuel
  | fuel + 1, asFile, st =>
    if !asFile.eof then
      (trackCycle P directory lineFuel asFile st).bind fun r =>
        trackingLoop P directory lineFuel fuel r.1 r.2
    else .done (asFile, st)

/-- Lines 108-112: the directory with a trailing slash; `at` throws on an
empty argument. -/
def directoryOf (argv1 : Str) : Outcome Str :=
  match argv1.getLast? with
  | none => .aborted
  | some c => if c ≠ '/' then .done (argv1 ++ ['/']) else .done argv1

/-- The stream `asFile` once `depth.txt`, whose text is `manifest`, is open
(the file is taken to exist, as the assertion of line 131 asks). -/
def openFile (manifest : Str) : IStream :=
  { rest := manifest, eofbit := false, failbit := false }

/-- The local variables of `main` at line 131. -/
def initState [Group G] (P : Platform σ Img G α) : MainState σ Img G α :=
  { firstData := P.uninit, secondData := P.uninit,
    firstRaw := .first, secondRaw := .second,
    icpOdom := P.ICPOdometry, clock := 0, timestamp := 0,
    T_wc_prev := 1, T_wc_curr := 1,
    mean := P.fltMax, count := 0, threads := 224, blocks := 96,
    bestThreads := 224, bestBlocks := 96, best := P.fltMax,
    file := [], tuneCalls := [], cycles := [], sweep := [] }

/-- Lines 133-226: the two initial fetches, the tuning block and the reset of
both poses; the result is the state on entering the tracking loop. -/
def beforeTracking [Group G] [LinearOrder α] (P : Platform σ Img G α) (directory : Str)
    (argv2 : Option Str) (manifest : Str) (fuel : Nat) :
    Outcome (IStream × MainState σ Img G α) :=
  ((initState P).load P directory fuel (openFile manifest) .first).bind fun r1 =>
  (r1.2.1.load P directory fuel r1.1 r1.2.1.secondRaw).bind fun r2 =>
    let st := tuningBlock P argv2 { r2.2.1 with timestamp := r2.2.2 }
    .done (r2.1, { st with T_wc_prev := 1, T_wc_curr := 1 })

/-- The function `main`, run with arguments `argv1` and, when `argc == 3`,
`argv2`, on a `depth.txt` whose text is `manifest`, up to the end of the
tracking loop (line 256); the result is the value of its variables there.
The text written to `std::cout`, with the rate `int(1000.f / mean)` of line
260, is not part of the result. -/
def main [Group G] [LinearOrder α] (P : Platform σ Img G α) (argv1 : Str)
    (argv2 : Option Str) (manifest : Str) (fuel : Nat) : Outcome (MainState σ Img G α) :=
  (directoryOf argv1).bind fun directory =>
  (beforeTracking P directory argv2 manifest fuel).bind fun r =>
  (trackingLoop P directory fuel fuel r.1 r.2).bind fun r => .done r.2

end Main

/-! ## Manifests made of data lines -/

/-- A manifest line of the form `A.B path`, and the image its path decodes
to. -/
structure Frame (Img : Type) where
  A : Str
  B : Str
  path : Str
  image : Img

/-- The text of the line. -/
def Frame.line {Img : Type} (f : Frame Img) : Str := f.A ++ '.' :: (f.B ++ ' ' :: f.path)

/-- The value `loadDepth` returns for the line (`loadDepth_frame`). -/
def Frame.time {Img : Type} (f : Frame Img) : Nat := extractUInt64 (f.A ++ f.B)

/-- The line is a two-token record: `A` and `B` are non-empty strings of
decimal digits, the path is a non-empty word, and the image at
`directory ++ path` loads. -/
def Frame.Valid {σ Img G α : Type} (P : Platform σ Img G α) (directory : Str)
    (f : Frame Img) : Prop :=
  f.A ≠ [] ∧ f.B ≠ [] ∧ (∀ c ∈ f.A, c.isDigit = true) ∧ (∀ c ∈ f.B, c.isDigit = true) ∧
  f.path ≠ [] ∧ ' ' ∉ f.path ∧ '\n' ∉ f.path ∧
  P.LoadImage (directory ++ f.path) = some f.image

/-- The manifest whose lines are `lines`, each line but the last followed by
a newline, the last one followed by a newline exactly when `nl` is true. -/
def manifestText (nl : Bool) : List Str → Str
  | [] => []
  | [l] => if nl then l ++ ['\n'] else l
  | l :: l2 :: ls => l ++ '\n' :: manifestText nl (l2 :: ls)

/-- The values `16, 32, ..., 512` of the sweep. -/
def gridValues : List Nat := List.range' 16 32 16

/-- The candidates of the sweep in the order they are tried: threads in the
outer loop, blocks in the inner loop. -/
def candidates : List (Nat × Nat) :=
  gridValues.flatMap fun threads => gridValues.map fun blocks => (threads, blocks)

/-- A value of the declared grid: a multiple of 16 between 16 and 512. -/
def InGrid (n : Nat) : Prop := n % 16 = 0 ∧ 16 ≤ n ∧ n ≤ 512

/-- A test double: the primitive returns `T` whatever it is given and counts
its invocations, every path decodes to itself, the clock ticks once per
reading and every mean latency comes out as 1. -/
def stubPlatform {G : Type} (T : G) : Platform Nat Str G Nat :=
  { ICPOdometry := 0
    initICPModel := fun s _ => s
    initICP := fun s _ => s
    getIncrementalTransformation := fun s _ _ _ => (s + 1, T)
    LoadImage := fun path => some path
    uninit := []
    getCurrTime := fun n => n
    fltMax := 1000
    zero := 0
    meanUpdate := fun _ _ _ => 1 }

/-- The three-frame manifest of the example, with time stamps `1.1`, `2.2`,
`3.3`. -/
def threeFrames : List (Frame Str) :=
  [ { A := ['1'], B := ['1'], path := ['a'], image := ['d', '/', 'a'] },
    { A := ['2'], B := ['2'], path := ['b'], image := ['d', '/', 'b'] },
    { A := ['3'], B := ['3'], path := ['c'], image := ['d', '/', 'c'] } ]

/-! ## Notions used in the proofs -/

/-- Fuel needed by the loop of `tokenize` from `lastPos`. -/
def tokenizeMeasure (str : Str) : Option Nat → Nat
  | none => 0
  | some l => str.length - l + 1

/-- The part of the state the sweep leaves alone: the buffers, the views,
the pending time stamp, the trajectory file and the record of cycles. -/
def SameTracking {σ Img G α : Type} (s s' : MainState σ Img G α) : Prop :=
  s'.firstData = s.firstData ∧ s'.secondData = s.secondData ∧ s'.firstRaw = s.firstRaw ∧
  s'.secondRaw = s.secondRaw ∧ s'.timestamp = s.timestamp ∧ s'.file = s.file ∧
  s'.cycles = s.cycles

/-- The update of lines 202-206 on the triple (threads, blocks, latency). -/
def pickBest {α : Type} [LinearOrder α] (acc e : Nat × Nat × α) : Nat × Nat × α :=
  if e.2.2 < acc.2.2 then e else acc

/-- What one benchmark repetition changes. -/
structure RepSpec {σ Img G α : Type} [Group G] (P : Platform σ Img G α)
    (s s' : MainState σ Img G α) : Prop where
  threads : s'.threads = s.threads
  blocks : s'.blocks = s.blocks
  best : s'.best = s.best
  bestThreads : s'.bestThreads = s.bestThreads
  bestBlocks : s'.bestBlocks = s.bestBlocks
  sweep : s'.sweep = s.sweep
  same : SameTracking s s'
  mean : ∃ x, s'.mean = P.meanUpdate s.count s.mean x
  calls : ∃ c, s'.tuneCalls = s.tuneCalls ++ [c] ∧ c.guess = 1 ∧ c.threads = s.threads ∧
    c.blocks = s.blocks

/-- What the body of the sweep does for one candidate. -/
structure CandidateSpec {σ Img G α : Type} [Group G] [LinearOrder α]
    (P : Platform σ Img G α) (b : Nat)
    (s s' : MainState σ Img G α) : Prop where
  threads : s'.threads = s.threads
  same : SameTracking s s'
  sel : ∃ m, (∃ c m0 x, m = P.meanUpdate c m0 x) ∧
    s'.sweep = s.sweep ++ [(s.threads, b, m)] ∧
    (s'.bestThreads, s'.bestBlocks, s'.best)
      = pickBest (s.bestThreads, s.bestBlocks, s.best) (s.threads, b, m)
  calls : ∃ new, s'.tuneCalls = s.tuneCalls ++ new ∧ new.length = 5 ∧
    ∀ c ∈ new, c.guess = 1 ∧ c.threads = s.threads ∧ c.blocks = b

/-- What running the body of the sweep over the candidates `cs` does. -/
structure RunSpec {σ Img G α : Type} [Group G] [LinearOrder α] (P : Platform σ Img G α)
    (cs : List (Nat × Nat)) (s s' : MainState σ Img G α) : Prop where
  same : SameTracking s s'
  sel : ∃ new, s'.sweep = s.sweep ++ new ∧ new.map (fun e => (e.1, e.2.1)) = cs ∧
    (∀ e ∈ new, ∃ c m0 x, e.2.2 = P.meanUpdate c m0 x) ∧
    (s'.bestThreads, s'.bestBlocks, s'.best)
      = new.foldl pickBest (s.bestThreads, s.bestBlocks, s.best)
  calls : ∃ new, s'.tuneCalls = s.tuneCalls ++ new ∧ new.length = 5 * cs.length ∧
    ∀ c ∈ new, c.guess = 1 ∧ (c.threads, c.blocks) ∈ cs

/-- What lines 151-223 do: `swept` tells whether the sweep ran. -/
structure BlockSpec {σ Img G α : Type} [Group G] [LinearOrder α] (P : Platform σ Img G α)
    (swept : Bool) (s s' : MainState σ Img G α) : Prop where
  same : SameTracking s s'
  threads : s'.threads = s'.bestThreads
  blocks : s'.blocks = s'.bestBlocks
  sel : ∃ new, s'.sweep = s.sweep ++ new ∧
    new.map (fun e => (e.1, e.2.1)) = (if swept then candidates else []) ∧
    (∀ e ∈ new, ∃ c m0 x, e.2.2 = P.meanUpdate c m0 x) ∧
    (s'.bestThreads, s'.bestBlocks, s'.best) = new.foldl pickBest (224, 96, P.fltMax)
  calls : ∃ new, s'.tuneCalls = s.tuneCalls ++ new ∧
    new.length = (if swept then 5120 else 0) ∧ ∀ c ∈ new, c.guess = 1

/-- The state after one turn of the tracking loop whose fetch stored `img`
and returned `t`. -/
def nextState {σ Img G α : Type} [Group G] (P : Platform σ Img G α)
    (st : MainState σ Img G α) (img : Img) (t : Nat) : MainState σ Img G α :=
  { (trackStep P st).store (trackStep P st).secondRaw img with timestamp := t }

/-- How two consecutive cycles are linked: the pose chain, the exchange of
the two slots, and the observation that becomes the model. -/
def Linked {Img G : Type} (a b : Step Img G) : Prop :=
  b.T_wc_prev = a.T_wc_curr ∧ b.modelSlot = a.obsSlot ∧ b.obsSlot = a.modelSlot ∧
  b.model = a.obs

/-- The invariant of the tracking loop. -/
structure TrackInv {σ Img G α : Type} [Group G] (P : Platform σ Img G α)
    (st : MainState σ Img G α) : Prop where
  cfg : ∀ c ∈ st.cycles, c.threads = st.threads ∧ c.blocks = st.blocks
  guess : ∀ c ∈ st.cycles, c.guess = 1
  step : ∀ c ∈ st.cycles, c.T_wc_curr = c.T_wc_prev * c.T_prev_curr ∧
    ∃ s, c.T_prev_curr = (P.getIncrementalTransformation s c.guess c.threads c.blocks).2
  chain : List.Chain' Linked st.cycles
  last : ∀ c ∈ st.cycles.getLast?, c.T_wc_curr = st.T_wc_curr ∧ c.obsSlot = st.firstRaw ∧
    c.modelSlot = st.secondRaw ∧ c.obs = st.deref st.firstRaw
  first : (st.cycles = [] → st.T_wc_curr = 1) ∧ ∀ c ∈ st.cycles.head?, c.T_wc_prev = 1
  slots : st.firstRaw ≠ st.secondRaw ∧ ∀ c ∈ st.cycles, c.modelSlot ≠ c.obsSlot
  file : st.file = st.cycles.map fun c => (c.timestamp, c.T_wc_curr)

/-- The part of the state the tracking loop leaves alone. -/
def SameTuning {σ Img G α : Type} (s s' : MainState σ Img G α) : Prop :=
  s'.threads = s.threads ∧ s'.blocks = s.blocks ∧ s'.bestThreads = s.bestThreads ∧
  s'.bestBlocks = s.bestBlocks ∧ s'.best = s.best ∧ s'.sweep = s.sweep ∧
  s'.tuneCalls = s.tuneCalls

/-- The state on entering the tracking loop; `swept` tells whether the sweep
ran. -/
structure EntrySpec {σ Img G α : Type} [Group G] [LinearOrder α] (P : Platform σ Img G α)
    (swept : Bool) (s : MainState σ Img G α) : Prop where
  poses : s.T_wc_prev = 1 ∧ s.T_wc_curr = 1
  cycles : s.cycles = []
  file : s.file = []
  views : s.firstRaw = .first ∧ s.secondRaw = .second
  inGrid : InGrid s.threads ∧ InGrid s.blocks
  config : s.threads = s.bestThreads ∧ s.blocks = s.bestBlocks
  sel : s.sweep.map (fun e => (e.1, e.2.1)) = (if swept then candidates else []) ∧
    (∀ e ∈ s.sweep, ∃ c m0 x, e.2.2 = P.meanUpdate c m0 x) ∧
    (s.bestThreads, s.bestBlocks, s.best) = s.sweep.foldl pickBest (224, 96, P.fltMax)
  calls : s.tuneCalls.length = (if swept then 5120 else 0) ∧ ∀ c ∈ s.tuneCalls, c.guess = 1

/-- What a cycle shows of the frames: the model image, the observation image
and the time stamp written with the pose. -/
def Step.view {Img G : Type} (c : Step Img G) : Img × Img × Nat := (c.model, c.obs, c.timestamp)

/-- For each pair of consecutive frames, the image of the first, the image of
the second and the time of the second. -/
def frameViews {Img : Type} : List (Frame Img) → List (Img × Img × Nat)
  | f :: g :: rest => (f.image, g.image, g.time) :: frameViews (g :: rest)
  | _ => []

/-- The frames that get aligned as observation or model: all of them when the
manifest ends with a newline, all but the last when it does not. -/
def alignedFrames {Img : Type} (nl : Bool) (fs : List (Frame Img)) : List (Frame Img) :=
  if nl then fs else fs.dropLast

/-- The stream once the line before `ls` has been read from a manifest whose
remaining lines are `ls`. -/
def afterLine (nl : Bool) (ls : List Str) : IStream :=
  match ls with
  | [] => { rest := [], eofbit := !nl, failbit := false }
  | l :: ls => { rest := manifestText nl (l :: ls), eofbit := false, failbit := false }

/-- The first cycle finds the views as they were set up: `firstRaw` on the
first allocation and `secondRaw` on the second. -/
def SlotInv {σ Img G α : Type} (st : MainState σ Img G α) : Prop :=
  (st.cycles = [] → st.firstRaw = .first ∧ st.secondRaw = .second) ∧
  ∀ c ∈ st.cycles.head?, c.modelSlot = .first ∧ c.obsSlot = .second

/-- The text `r` is empty or ends with a newline: it is made of whole
lines. -/
def Closed (r : Str) : Prop := r = [] ∨ r.getLast? = some '\n'

/-- The stream `a` is the stream `b` with the line `line` and its newline
inserted in the unread text before `post`, at the start of a line; or the
two streams are the same. -/
def Sim (line post : Str) (a b : IStream) : Prop :=
  a = b ∨ ∃ r, Closed r ∧
    a = { rest := r ++ (line ++ '\n' :: post), eofbit := false, failbit := false } ∧
    b = { rest := r ++ post, eofbit := false, failbit := false }

/-- The `ICPOdometry` object after `initICPModel(firstRaw.ptr)` and
`initICP(secondRaw.ptr)`: the object `getIncrementalTransformation` is called
on. -/
def primedICP {σ Img G α : Type} (P : Platform σ Img G α) (st : MainState σ Img G α) : σ :=
  P.initICP (P.initICPModel st.icpOdom (st.deref st.firstRaw)) (st.deref st.secondRaw)

/-- A platform whose primitive keeps, next to its own state, the list of the
guesses it has been called with. -/
def recording {σ Img G α : Type} (P : Platform σ Img G α) : Platform (σ × List G) Img G α :=
  { ICPOdometry := (P.ICPOdometry, [])
    initICPModel := fun s img => (P.initICPModel s.1 img, s.2)
    initICP := fun s img => (P.initICP s.1 img, s.2)
    getIncrementalTransformation := fun s T threads blocks =>
      (((P.getIncrementalTransformation s.1 T threads blocks).1, s.2 ++ [T]),
        (P.getIncrementalTransformation s.1 T threads blocks).2)
    LoadImage := P.LoadImage
    uninit := P.uninit
    getCurrTime := P.getCurrTime
    fltMax := P.fltMax
    zero := P.zero
    meanUpdate := P.meanUpdate }

/-- The function `log` reads, in the state of the primitive, the list of the
guesses it has been called with. -/
structure Records {σ Img G α : Type} (P : Platform σ Img G α) (log : σ → List G) : Prop where
  start : log P.ICPOdometry = []
  model : ∀ s img, log (P.initICPModel s img) = log s
  obs : ∀ s img, log (P.initICP s img) = log s
  call : ∀ s T threads blocks,
    log (P.getIncrementalTransformation s T threads blocks).1 = log s ++ [T]

/-- The guesses received so far are as many identities as there were
repetitions of the sweep and tracking cycles. -/
def LogInv {σ Img G α : Type} [Group G] (log : σ → List G) (s : MainState σ Img G α) : Prop :=
  log s.icpOdom = List.replicate (s.tuneCalls.length + s.cycles.length) 1

/-! ## Lemmas on strings and tokens -/

theorem findIdxFrom_none (p : Char → Bool) (a : Str) (i : Nat)
    (h : ∀ x ∈ a, p x = false) : findIdxFrom p a i = none := by
  induction a generalizing i with
  | nil => rfl
  | cons x xs ih =>
    have hx : p x = false := h x (List.mem_cons_self _ _)
    simp only [findIdxFrom, hx]
    exact ih _ (fun y hy => h y (List.mem_cons_of_mem _ hy))

theorem findIdxFrom_append_hit (p : Char → Bool) (a b : Str) (c : Char) (i : Nat)
    (h : ∀ x ∈ a, p x = false) (hc : p c = true) :
    findIdxFrom p (a ++ c :: b) i = some (i + a.length) := by
  induction a generalizing i with
  | nil => simp [findIdxFrom, hc]
  | cons x xs ih =>
    have hx : p x = false := h x (List.mem_cons_self _ _)
    have e := ih (i + 1) (fun y hy => h y (List.mem_cons_of_mem _ hy))
    show findIdxFrom p (x :: (xs ++ c :: b)) i = _
    rw [findIdxFrom, hx, if_neg (by simp), e]
    simp; omega

theorem contains_single (d c : Char) : ([d] : Str).contains c = (c == d) := by
  simp only [List.contains, List.elem]
  cases (c == d) <;> rfl

theorem tokenizeLoop_some (str delimiters : Str) (fuel l : Nat) (tokens : List Str) :
    tokenizeLoop str delimiters (fuel + 1) (some l) tokens =
      tokenizeLoop str delimiters fuel
        (find_first_not_of str delimiters (find_first_of str delimiters (some l)))
        (tokens ++ [substr str l (find_first_of str delimiters (some l))]) := rfl

theorem tokenizeLoop_none (str delimiters : Str) (fuel : Nat) (tokens : List Str) :
    tokenizeLoop str delimiters fuel none tokens = tokens := by
  cases fuel <;> rfl

theorem drop_length_succ (a b : Str) (d : Char) :
    List.drop (a.length + 1) (a ++ d :: b) = b := by
  rw [show a ++ d :: b = (a ++ [d]) ++ b by simp]
  rw [show a.length + 1 = (a ++ [d]).length by simp]
  exact List.drop_left _ _

theorem tokenizeLoop_two (a b : Str) (d : Char) (ha : a ≠ []) (hb : b ≠ [])
    (hda : d ∉ a) (hdb : d ∉ b) (n : Nat) :
    tokenizeLoop (a ++ d :: b) [d] (n + 3)
      (find_first_not_of (a ++ d :: b) [d] (some 0)) [] = [a, b] := by
  have hA : ∀ z ∈ a, (fun c => ([d] : Str).contains c) z = false := by
    intro z hz
    simp only [contains_single, beq_eq_false_iff_ne]
    rintro rfl; exact hda hz
  have hB : ∀ z ∈ b, (fun c => ([d] : Str).contains c) z = false := by
    intro z hz
    simp only [contains_single, beq_eq_false_iff_ne]
    rintro rfl; exact hdb hz
  have h0 : find_first_not_of (a ++ d :: b) [d] (some 0) = some 0 := by
    obtain ⟨x, a', rfl⟩ := List.exists_cons_of_ne_nil ha
    have hxd : x ≠ d := fun h => hda (h ▸ List.mem_cons_self _ _)
    simp [find_first_not_of, findIdxFrom, contains_single, hxd]
  have h1 : find_first_of (a ++ d :: b) [d] (some 0) = some a.length := by
    have := findIdxFrom_append_hit (fun c => ([d] : Str).contains c) a b d 0 hA
      (by simp [contains_single])
    simpa [find_first_of] using this
  have h2 : find_first_not_of (a ++ d :: b) [d] (some a.length) = some (a.length + 1) := by
    obtain ⟨y, b', rfl⟩ := List.exists_cons_of_ne_nil hb
    have hyd : y ≠ d := fun h => hdb (h ▸ List.mem_cons_self _ _)
    simp only [find_first_not_of]
    rw [List.drop_left]
    simp [findIdxFrom, contains_single, hyd]
  have h3 : find_first_of (a ++ d :: b) [d] (some (a.length + 1)) = none := by
    simp only [find_first_of]
    rw [drop_length_succ]
    exact findIdxFrom_none _ _ _ hB
  rw [h0, tokenizeLoop_some, h1, h2, tokenizeLoop_some, h3]
  simp only [find_first_not_of, tokenizeLoop_none, substr, drop_length_succ]
  simp

/-- A string made of two words around one delimiter splits into these two
words. -/
theorem tokenize_two (a b : Str) (d : Char) (ha : a ≠ []) (hb : b ≠ [])
    (hda : d ∉ a) (hdb : d ∉ b) : tokenize (a ++ d :: b) [d] = [a, b] := by
  obtain ⟨x, a', rfl⟩ := List.exists_cons_of_ne_nil ha
  obtain ⟨y, b', rfl⟩ := List.exists_cons_of_ne_nil hb
  have hl : (x :: a' ++ d :: y :: b').length + 1 = (a'.length + b'.length + 1) + 3 := by
    simp; omega
  unfold tokenize
  rw [hl]
  exact tokenizeLoop_two _ _ d ha hb hda hdb _

theorem findIdxFrom_some (p : Char → Bool) (s : Str) (i k : Nat)
    (h : findIdxFrom p s i = some k) :
    i ≤ k ∧ k < i + s.length ∧ ∃ c rest, s.drop (k - i) = c :: rest ∧ p c = true := by
  induction s generalizing i with
  | nil => simp [findIdxFrom] at h
  | cons x xs ih =>
    rw [findIdxFrom] at h
    by_cases hx : p x = true
    · rw [if_pos hx] at h
      obtain rfl : i = k := by simpa using h
      exact ⟨le_refl _, by simp, x, xs, by simp, hx⟩
    · rw [if_neg hx] at h
      obtain ⟨h1, h2, c, rest, h3, h4⟩ := ih _ h
      refine ⟨by omega, by simp; omega, c, rest, ?_, h4⟩
      rw [show k - i = (k - (i + 1)) + 1 by omega]
      simpa using h3

/-- One turn of the loop of `tokenize` moves `lastPos` strictly forward, and
keeps it inside the string. -/
theorem next_lastPos (str delimiters : Str) (l l' : Nat)
    (h : find_first_not_of str delimiters (find_first_of str delimiters (some l)) = some l') :
    l < l' ∧ l' < str.length := by
  cases hp : find_first_of str delimiters (some l) with
  | none => rw [hp] at h; simp [find_first_not_of] at h
  | some p =>
    rw [hp] at h
    obtain ⟨h1, h2, c, rest, h3, h4⟩ := findIdxFrom_some _ _ _ _ hp
    have hd : str.drop p = c :: rest := by
      rw [List.drop_drop] at h3
      rwa [show l + (p - l) = p by omega] at h3
    simp only [find_first_not_of] at h
    rw [hd, findIdxFrom] at h
    simp only [h4, Bool.not_true] at h
    rw [if_neg (by simp)] at h
    obtain ⟨h5, h6, -⟩ := findIdxFrom_some _ _ _ _ h
    have hl : (str.drop p).length = rest.length + 1 := by rw [hd]; simp
    simp at hl
    omega

theorem tokenizeLoop_fuel_indep (str delimiters : Str) (f1 f2 : Nat) (lastPos : Option Nat)
    (tokens : List Str) (h1 : tokenizeMeasure str lastPos ≤ f1)
    (h2 : tokenizeMeasure str lastPos ≤ f2) :
    tokenizeLoop str delimiters f1 lastPos tokens
      = tokenizeLoop str delimiters f2 lastPos tokens := by
  induction f1 generalizing f2 lastPos tokens with
  | zero =>
    cases lastPos with
    | none => simp [tokenizeLoop_none]
    | some l => simp [tokenizeMeasure] at h1
  | succ n ih =>
    cases lastPos with
    | none => simp [tokenizeLoop_none]
    | some l =>
      cases f2 with
      | zero => simp [tokenizeMeasure] at h2
      | succ m =>
        rw [tokenizeLoop_some, tokenizeLoop_some]
        have key : tokenizeMeasure str
            (find_first_not_of str delimiters (find_first_of str delimiters (some l)))
            + 1 ≤ tokenizeMeasure str (some l) := by
          cases hn : find_first_not_of str delimiters (find_first_of str delimiters (some l)) with
          | none => simp [tokenizeMeasure]
          | some l' =>
            have := next_lastPos str delimiters l l' hn
            simp only [tokenizeMeasure]; omega
        exact ih _ _ _ (by omega) (by omega)

/-- The fuel `str.length + 1` given to the loop by `tokenize` is never used
up: any larger amount gives the same tokens. -/
theorem tokenizeLoop_fuel (str delimiters : Str) (fuel : Nat) (h : str.length + 1 ≤ fuel) :
    tokenizeLoop str delimiters fuel (find_first_not_of str delimiters (some 0)) []
      = tokenize str delimiters := by
  have hm : tokenizeMeasure str (find_first_not_of str delimiters (some 0)) ≤ str.length + 1 := by
    cases find_first_not_of str delimiters (some 0) with
    | none => simp [tokenizeMeasure]
    | some l => simp only [tokenizeMeasure]; omega
  exact tokenizeLoop_fuel_indep _ _ _ _ _ _ (by omega) hm

/-! ## Lemmas on `getline` and `loadDepth` -/

theorem readLine_append_nl (l r : Str) (h : '\n' ∉ l) :
    readLine (l ++ '\n' :: r) = (l, some r) := by
  induction l with
  | nil => simp [readLine]
  | cons x xs ih =>
    have hx : x ≠ '\n' := fun e => h (e ▸ List.mem_cons_self _ _)
    have := ih (fun hm => h (List.mem_cons_of_mem _ hm))
    show readLine (x :: (xs ++ '\n' :: r)) = _
    rw [readLine, if_neg hx, this]

theorem readLine_no_nl (l : Str) (h : '\n' ∉ l) : readLine l = (l, none) := by
  induction l with
  | nil => simp [readLine]
  | cons x xs ih =>
    have hx : x ≠ '\n' := fun e => h (e ▸ List.mem_cons_self _ _)
    have := ih (fun hm => h (List.mem_cons_of_mem _ hm))
    rw [readLine, if_neg hx, this]

theorem getline_line (l r cur : Str) (h : '\n' ∉ l) :
    getline { rest := l ++ '\n' :: r, eofbit := false, failbit := false } cur
      = ({ rest := r, eofbit := false, failbit := false }, l) := by
  have e := readLine_append_nl l r h
  unfold getline
  simp only [IStream.good, Bool.not_false, Bool.and_self, if_true]
  cases hl : l ++ '\n' :: r with
  | nil => simp at hl
  | cons c cs => simp only; rw [← hl, e]

theorem getline_last (l cur : Str) (h : '\n' ∉ l) (hne : l ≠ []) :
    getline { rest := l, eofbit := false, failbit := false } cur
      = ({ rest := [], eofbit := true, failbit := false }, l) := by
  have e := readLine_no_nl l h
  unfold getline
  simp only [IStream.good, Bool.not_false, Bool.and_self, if_true]
  cases hl : l with
  | nil => exact absurd hl hne
  | cons c cs => simp only; rw [← hl, e]

theorem getline_end (cur : Str) :
    getline { rest := [], eofbit := false, failbit := false } cur
      = ({ rest := [], eofbit := true, failbit := true }, []) := rfl

theorem getline_not_good (s : IStream) (cur : Str) (h : s.good = false) :
    getline s cur = ({ s with failbit := true }, cur) := by
  unfold getline
  rw [h]; rfl

theorem getline_good (s : IStream) (cur cur' : Str) (h : s.good = true) :
    getline s cur = getline s cur' := by
  unfold getline
  rw [h]; rfl

theorem Outcome.bind_eq_done {α β : Type} (x : Outcome α) (f : α → Outcome β) (b : β) :
    x.bind f = .done b ↔ ∃ a, x = .done a ∧ f a = .done b := by
  cases x <;> simp [Outcome.bind]

theorem loadDepthLoop_succ (fuel : Nat) (asFile : IStream) (currentLine : Str) :
    loadDepthLoop (fuel + 1) asFile currentLine =
      if (tokenize (getline asFile currentLine).2).length > 2 then
        loadDepthLoop fuel (getline asFile currentLine).1 (getline asFile currentLine).2
      else .done ((getline asFile currentLine).1, tokenize (getline asFile currentLine).2) := rfl

theorem loadDepthLoop_mono (fuel : Nat) (asFile : IStream) (currentLine : Str)
    (r : IStream × List Str) (h : loadDepthLoop fuel asFile currentLine = .done r) :
    loadDepthLoop (fuel + 1) asFile currentLine = .done r := by
  induction fuel generalizing asFile currentLine with
  | zero => simp [loadDepthLoop] at h
  | succ n ih =>
    rw [loadDepthLoop_succ] at h ⊢
    split at h
    · rename_i hc; rw [if_pos hc]; exact ih _ _ h
    · rename_i hc; rw [if_neg hc]; exact h

theorem loadDepthLoop_mono_le (f f' : Nat) (hle : f ≤ f') (asFile : IStream) (currentLine : Str)
    (r : IStream × List Str) (h : loadDepthLoop f asFile currentLine = .done r) :
    loadDepthLoop f' asFile currentLine = .done r := by
  induction hle with
  | refl => exact h
  | step _ ih => exact loadDepthLoop_mono _ _ _ _ ih

theorem loadDepthLoop_good (fuel : Nat) (asFile : IStream) (cur cur' : Str)
    (h : asFile.good = true) :
    loadDepthLoop fuel asFile cur = loadDepthLoop fuel asFile cur' := by
  cases fuel with
  | zero => rfl
  | succ n => rw [loadDepthLoop_succ, loadDepthLoop_succ, getline_good asFile cur cur' h]

theorem loadDepthLoop_of_getline (fuel : Nat) (asFile asFile' : IStream) (cur line : Str)
    (hg : getline asFile cur = (asFile', line)) (h : (tokenize line).length ≤ 2) :
    loadDepthLoop (fuel + 1) asFile cur = .done (asFile', tokenize line) := by
  rw [loadDepthLoop_succ, hg, if_neg (by simpa using h)]

section

variable {σ Img G α : Type}

theorem loadDepth_mono_le (P : Platform σ Img G α) (directory : Str) (f f' : Nat) (hle : f ≤ f')
    (asFile : IStream) (depth : Img) (r : IStream × Img × Nat)
    (h : loadDepth P directory f asFile depth = .done r) :
    loadDepth P directory f' asFile depth = .done r := by
  unfold loadDepth at h ⊢
  rw [Outcome.bind_eq_done] at h ⊢
  obtain ⟨a, ha, hb⟩ := h
  exact ⟨a, loadDepthLoop_mono_le _ _ hle _ _ _ ha, hb⟩

/-- A line with two tokens whose first token has two dot-separated parts is
read as a record: the image at the path is stored and the two parts, joined,
are read as the time. -/
theorem loadDepth_record (P : Platform σ Img G α) (directory : Str) (fuel : Nat)
    (asFile asFile' : IStream) (depth img : Img) (line t0 t1 a b : Str) (rest : List Str)
    (hg : getline asFile [] = (asFile', line)) (ht : tokenize line = [t0, t1])
    (htt : tokenize t0 ['.'] = a :: b :: rest)
    (himg : P.LoadImage (directory ++ t1) = some img) :
    loadDepth P directory (fuel + 1) asFile depth
      = .done (asFile', img, extractUInt64 (a ++ b)) := by
  unfold loadDepth
  rw [loadDepthLoop_of_getline fuel asFile asFile' [] line hg (by simp [ht])]
  simp only [Outcome.bind, ht, himg, htt]

/-- A line without any token makes `loadDepth` return 0 and leave the buffer
as it is. -/
theorem loadDepth_blank (P : Platform σ Img G α) (directory : Str) (fuel : Nat)
    (asFile asFile' : IStream) (depth : Img) (line : Str)
    (hg : getline asFile [] = (asFile', line)) (ht : tokenize line = []) :
    loadDepth P directory (fuel + 1) asFile depth = .done (asFile', depth, 0) := by
  unfold loadDepth
  rw [loadDepthLoop_of_getline fuel asFile asFile' [] line hg (by simp [ht])]
  simp only [Outcome.bind, ht]

theorem isDigit_ne_space (c : Char) (h : c.isDigit = true) : c ≠ ' ' := by
  rintro rfl; revert h; decide

theorem isDigit_ne_dot (c : Char) (h : c.isDigit = true) : c ≠ '.' := by
  rintro rfl; revert h; decide

theorem isDigit_ne_newline (c : Char) (h : c.isDigit = true) : c ≠ '\n' := by
  rintro rfl; revert h; decide

theorem not_mem_of_digits (s : Str) (d : Char) (hd : d.isDigit = false)
    (h : ∀ c ∈ s, c.isDigit = true) : d ∉ s := by
  intro hm
  rw [h d hm] at hd
  exact absurd hd (by simp)

theorem Frame.timeTokens (f : Frame Img) (hA : f.A ≠ []) (hB : f.B ≠ [])
    (hdA : ∀ c ∈ f.A, c.isDigit = true) (hdB : ∀ c ∈ f.B, c.isDigit = true) :
    tokenize (f.A ++ '.' :: f.B) ['.'] = [f.A, f.B] :=
  tokenize_two _ _ _ hA hB (not_mem_of_digits _ _ (by decide) hdA)
    (not_mem_of_digits _ _ (by decide) hdB)

theorem Frame.tokens (P : Platform σ Img G α) (directory : Str) (f : Frame Img)
    (h : f.Valid P directory) : tokenize f.line = [f.A ++ '.' :: f.B, f.path] := by
  obtain ⟨hA, hB, hdA, hdB, hp, hsp, -, -⟩ := h
  have : f.line = (f.A ++ '.' :: f.B) ++ ' ' :: f.path := by simp [Frame.line]
  rw [this]
  refine tokenize_two _ _ ' ' (by simp) hp ?_ hsp
  simp only [List.mem_append, List.mem_cons, not_or]
  exact ⟨not_mem_of_digits _ _ (by decide) hdA, by decide,
    not_mem_of_digits _ _ (by decide) hdB⟩

theorem Frame.no_newline (P : Platform σ Img G α) (directory : Str) (f : Frame Img)
    (h : f.Valid P directory) : '\n' ∉ f.line := by
  obtain ⟨hA, hB, hdA, hdB, hp, hsp, hnl, -⟩ := h
  simp only [Frame.line, List.mem_append, List.mem_cons, not_or]
  exact ⟨not_mem_of_digits _ _ (by decide) hdA, by decide,
    not_mem_of_digits _ _ (by decide) hdB, by decide, hnl⟩

theorem Frame.line_ne_nil (f : Frame Img) : f.line ≠ [] := by
  simp [Frame.line]

/-- The function `loadDepth` on a line `A.B path`: the image of the path is
stored and `Frame.time` is returned. -/
theorem loadDepth_frame (P : Platform σ Img G α) (directory : Str) (fuel : Nat)
    (asFile asFile' : IStream) (depth : Img) (f : Frame Img) (h : f.Valid P directory)
    (hg : getline asFile [] = (asFile', f.line)) :
    loadDepth P directory (fuel + 1) asFile depth = .done (asFile', f.image, f.time) :=
  loadDepth_record P directory fuel asFile asFile' depth f.image f.line _ _ f.A f.B []
    hg (Frame.tokens P directory f h) (Frame.timeTokens f h.1 h.2.1 h.2.2.1 h.2.2.2.1)
    h.2.2.2.2.2.2.2

end

/-! ## Lemmas on the sweep -/

theorem forLoop_eq_foldl {S : Type} (cond : Nat → Bool) (step : Nat) (body : Nat → S → S)
    (n fuel i : Nat) (s : S) (hin : ∀ k, k < n → cond (i + k * step) = true)
    (hout : cond (i + n * step) = false) (hfuel : n < fuel) :
    forLoop cond step body fuel i s = (List.range' i n step).foldl (fun s t => body t s) s := by
  induction n generalizing fuel i s with
  | zero =>
    cases fuel with
    | zero => omega
    | succ f =>
      have : cond i = false := by simpa using hout
      simp [forLoop, this, List.range']
  | succ n ih =>
    cases fuel with
    | zero => omega
    | succ f =>
      have h0 : cond i = true := by simpa using hin 0 (by omega)
      rw [forLoop, if_pos h0, List.range', List.foldl_cons]
      apply ih
      · intro k hk
        have := hin (k + 1) (by omega)
        rwa [show i + (k + 1) * step = i + step + k * step by ring] at this
      · rwa [show i + (n + 1) * step = i + step + n * step by ring] at hout
      · omega

theorem forLoop_grid {S : Type} (body : Nat → S → S) (s : S) :
    forLoop (fun t => decide (t ≤ 512)) 16 body 33 16 s
      = gridValues.foldl (fun s t => body t s) s := by
  apply forLoop_eq_foldl
  · intro k hk; simp; omega
  · simp
  · omega

theorem forLoop_five {S : Type} (f : S → S) (s : S) :
    forLoop (fun i => decide (i < 5)) 1 (fun _ s => f s) 6 0 s = f (f (f (f (f s)))) := rfl

theorem foldl_invariant {S β : Type} (I : S → Prop) (f : S → β → S) (l : List β) (s : S)
    (h : ∀ s b, b ∈ l → I s → I (f s b)) (hs : I s) : I (l.foldl f s) := by
  induction l generalizing s with
  | nil => exact hs
  | cons x xs ih =>
    rw [List.foldl_cons]
    exact ih _ (fun s b hb => h s b (List.mem_cons_of_mem _ hb)) (h s x (List.mem_cons_self _ _) hs)

theorem mem_gridValues (n : Nat) (h : n ∈ gridValues) : InGrid n := by
  simp only [gridValues, List.mem_range'] at h
  obtain ⟨i, hi, rfl⟩ := h
  refine ⟨by omega, by omega, by omega⟩

section
variable {σ Img G α : Type}

theorem SameTracking.refl (s : MainState σ Img G α) : SameTracking s s :=
  ⟨rfl, rfl, rfl, rfl, rfl, rfl, rfl⟩

theorem SameTracking.trans {s1 s2 s3 : MainState σ Img G α} (h1 : SameTracking s1 s2)
    (h2 : SameTracking s2 s3) : SameTracking s1 s3 := by
  obtain ⟨a1, a2, a3, a4, a5, a6, a7⟩ := h1
  obtain ⟨b1, b2, b3, b4, b5, b6, b7⟩ := h2
  exact ⟨b1.trans a1, b2.trans a2, b3.trans a3, b4.trans a4, b5.trans a5, b6.trans a6,
    b7.trans a7⟩

theorem alignStep_guess [Group G] (P : Platform σ Img G α) (st : MainState σ Img G α) :
    (alignStep P st).2.guess = 1 := by
  simp [alignStep]

theorem tuneRep_spec [Group G] (P : Platform σ Img G α) (s : MainState σ Img G α) :
    RepSpec P s (tuneRep P s) :=
  { threads := rfl, blocks := rfl, best := rfl, bestThreads := rfl, bestBlocks := rfl,
    sweep := rfl, same := ⟨rfl, rfl, rfl, rfl, rfl, rfl, rfl⟩,
    mean := ⟨_, rfl⟩,
    calls := ⟨(alignStep P s).2, rfl, alignStep_guess P s, rfl, rfl⟩ }

theorem tuneCandidate_spec [Group G] [LinearOrder α] (P : Platform σ Img G α) (b : Nat)
    (s : MainState σ Img G α) : CandidateSpec P b s (tuneCandidate P b s) := by
  unfold tuneCandidate
  simp only [forLoop_five]
  generalize hs0 : ({ s with blocks := b, mean := P.zero, count := 0 } : MainState σ Img G α) = s0
  have e0 : s0.threads = s.threads ∧ s0.blocks = b ∧ s0.best = s.best ∧
      s0.bestThreads = s.bestThreads ∧ s0.bestBlocks = s.bestBlocks ∧ s0.sweep = s.sweep ∧
      SameTracking s s0 ∧ s0.tuneCalls = s.tuneCalls := by
    subst hs0; exact ⟨rfl, rfl, rfl, rfl, rfl, rfl, ⟨rfl, rfl, rfl, rfl, rfl, rfl, rfl⟩, rfl⟩
  obtain ⟨e1, e2, e3, e4, e5, e6, e7, e8⟩ := e0
  have r1 := tuneRep_spec P s0
  generalize tuneRep P s0 = s1 at r1 ⊢
  have r2 := tuneRep_spec P s1
  generalize tuneRep P s1 = s2 at r2 ⊢
  have r3 := tuneRep_spec P s2
  generalize tuneRep P s2 = s3 at r3 ⊢
  have r4 := tuneRep_spec P s3
  generalize tuneRep P s3 = s4 at r4 ⊢
  have r5 := tuneRep_spec P s4
  generalize tuneRep P s4 = s5 at r5 ⊢
  have ht : s5.threads = s.threads := by
    rw [r5.threads, r4.threads, r3.threads, r2.threads, r1.threads, e1]
  have hb : s5.blocks = b := by
    rw [r5.blocks, r4.blocks, r3.blocks, r2.blocks, r1.blocks, e2]
  have hbest : s5.best = s.best := by
    rw [r5.best, r4.best, r3.best, r2.best, r1.best, e3]
  have hbt : s5.bestThreads = s.bestThreads := by
    rw [r5.bestThreads, r4.bestThreads, r3.bestThreads, r2.bestThreads, r1.bestThreads, e4]
  have hbb : s5.bestBlocks = s.bestBlocks := by
    rw [r5.bestBlocks, r4.bestBlocks, r3.bestBlocks, r2.bestBlocks, r1.bestBlocks, e5]
  have hsw : s5.sweep = s.sweep := by
    rw [r5.sweep, r4.sweep, r3.sweep, r2.sweep, r1.sweep, e6]
  have hsame : SameTracking s s5 :=
    e7.trans (r1.same.trans (r2.same.trans (r3.same.trans (r4.same.trans r5.same))))
  have hcalls : ∃ new, s5.tuneCalls = s.tuneCalls ++ new ∧ new.length = 5 ∧
      ∀ c ∈ new, c.guess = 1 ∧ c.threads = s.threads ∧ c.blocks = b := by
    obtain ⟨c1, q1, g1, t1, b1⟩ := r1.calls
    obtain ⟨c2, q2, g2, t2, b2⟩ := r2.calls
    obtain ⟨c3, q3, g3, t3, b3⟩ := r3.calls
    obtain ⟨c4, q4, g4, t4, b4⟩ := r4.calls
    obtain ⟨c5, q5, g5, t5, b5⟩ := r5.calls
    refine ⟨[c1, c2, c3, c4, c5], ?_, rfl, ?_⟩
    · rw [q5, q4, q3, q2, q1, e8]; simp
    · intro c hc
      simp only [List.mem_cons, List.mem_singleton, List.not_mem_nil, or_false] at hc
      rw [r4.threads, r3.threads, r2.threads, r1.threads, e1] at t5
      rw [r3.threads, r2.threads, r1.threads, e1] at t4
      rw [r2.threads, r1.threads, e1] at t3
      rw [r1.threads, e1] at t2
      rw [e1] at t1
      rw [r4.blocks, r3.blocks, r2.blocks, r1.blocks, e2] at b5
      rw [r3.blocks, r2.blocks, r1.blocks, e2] at b4
      rw [r2.blocks, r1.blocks, e2] at b3
      rw [r1.blocks, e2] at b2
      rw [e2] at b1
      rcases hc with rfl | rfl | rfl | rfl | rfl
      exacts [⟨g1, t1, b1⟩, ⟨g2, t2, b2⟩, ⟨g3, t3, b3⟩, ⟨g4, t4, b4⟩, ⟨g5, t5, b5⟩]
  obtain ⟨x, hx⟩ := r5.mean
  have hm : ∃ c m0 x, s5.mean = P.meanUpdate c m0 x := ⟨_, _, _, hx⟩
  by_cases hlt : s5.mean < s5.best
  · simp only [if_pos hlt]
    refine ⟨ht, hsame, ⟨s5.mean, hm, ?_, ?_⟩, hcalls⟩
    · simp only [hsw, ht, hb]
    · rw [hbest] at hlt
      simp only [pickBest, if_pos hlt, ht, hb]
  · simp only [if_neg hlt]
    refine ⟨ht, hsame, ⟨s5.mean, hm, ?_, ?_⟩, hcalls⟩
    · simp only [hsw, ht, hb]
    · rw [hbest] at hlt
      simp only [pickBest, if_neg hlt, hbt, hbb, hbest]

end

section
variable {σ Img G α : Type} [Group G] [LinearOrder α]

theorem RunSpec.nil (P : Platform σ Img G α) (s s' : MainState σ Img G α)
    (h1 : SameTracking s s') (h2 : s'.sweep = s.sweep) (h3 : s'.bestThreads = s.bestThreads)
    (h4 : s'.bestBlocks = s.bestBlocks) (h5 : s'.best = s.best)
    (h6 : s'.tuneCalls = s.tuneCalls) : RunSpec P [] s s' :=
  { same := h1
    sel := ⟨[], by simp [h2], rfl, by simp, by simp [h3, h4, h5]⟩
    calls := ⟨[], by simp [h6], rfl, by simp⟩ }

theorem RunSpec.append (P : Platform σ Img G α) (cs1 cs2 : List (Nat × Nat))
    (s1 s2 s3 : MainState σ Img G α) (h1 : RunSpec P cs1 s1 s2) (h2 : RunSpec P cs2 s2 s3) :
    RunSpec P (cs1 ++ cs2) s1 s3 := by
  obtain ⟨a1, ⟨n1, a2, a3, a4, a5⟩, ⟨m1, a6, a7, a8⟩⟩ := h1
  obtain ⟨b1, ⟨n2, b2, b3, b4, b5⟩, ⟨m2, b6, b7, b8⟩⟩ := h2
  refine ⟨a1.trans b1, ⟨n1 ++ n2, ?_, ?_, ?_, ?_⟩, ⟨m1 ++ m2, ?_, ?_, ?_⟩⟩
  · rw [b2, a2, List.append_assoc]
  · rw [List.map_append, a3, b3]
  · intro e he
    rcases List.mem_append.1 he with h | h
    · exact a4 e h
    · exact b4 e h
  · rw [List.foldl_append, ← a5, b5]
  · rw [b6, a6, List.append_assoc]
  · rw [List.length_append, a7, b7, List.length_append]; ring
  · intro c hc
    rcases List.mem_append.1 hc with h | h
    · exact ⟨(a8 c h).1, List.mem_append_left _ (a8 c h).2⟩
    · exact ⟨(b8 c h).1, List.mem_append_right _ (b8 c h).2⟩

theorem RunSpec.candidate (P : Platform σ Img G α) (t b : Nat) (s : MainState σ Img G α)
    (ht : s.threads = t) : RunSpec P [(t, b)] s (tuneCandidate P b s) := by
  obtain ⟨-, h2, ⟨m, hm, h3, h4⟩, ⟨new, h5, h6, h7⟩⟩ := tuneCandidate_spec P b s
  refine ⟨h2, ⟨[(s.threads, b, m)], h3, by simp [ht], ?_, ?_⟩, ⟨new, h5, by simp [h6], ?_⟩⟩
  · intro e he
    obtain rfl : e = (s.threads, b, m) := by simpa using he
    exact hm
  · rw [h4]; rfl
  · intro c hc
    obtain ⟨g1, g2, g3⟩ := h7 c hc
    exact ⟨g1, by simp [g2, g3, ht]⟩

theorem inner_spec (P : Platform σ Img G α) (t : Nat) (bs : List Nat)
    (s : MainState σ Img G α) (ht : s.threads = t) :
    RunSpec P (bs.map fun b => (t, b)) s (bs.foldl (fun s b => tuneCandidate P b s) s) ∧
      (bs.foldl (fun s b => tuneCandidate P b s) s).threads = t := by
  induction bs generalizing s with
  | nil => exact ⟨RunSpec.nil P s s (SameTracking.refl s) rfl rfl rfl rfl rfl, ht⟩
  | cons b bs ih =>
    have h1 := RunSpec.candidate P t b s ht
    have ht' : (tuneCandidate P b s).threads = t := (tuneCandidate_spec P b s).threads.trans ht
    obtain ⟨h2, h3⟩ := ih (tuneCandidate P b s) ht'
    exact ⟨RunSpec.append P [(t, b)] _ _ _ _ h1 h2, h3⟩

theorem outer_spec (P : Platform σ Img G α) (ts : List Nat) (s : MainState σ Img G α) :
    RunSpec P (ts.flatMap fun t => gridValues.map fun b => (t, b)) s
      (ts.foldl (fun s t =>
        gridValues.foldl (fun s b => tuneCandidate P b s) { s with threads := t }) s) := by
  induction ts generalizing s with
  | nil => exact RunSpec.nil P s s (SameTracking.refl s) rfl rfl rfl rfl rfl
  | cons t ts ih =>
    have h0 : RunSpec P [] s { s with threads := t } :=
      RunSpec.nil P _ _ ⟨rfl, rfl, rfl, rfl, rfl, rfl, rfl⟩ rfl rfl rfl rfl rfl
    have h1 := (inner_spec P t gridValues { s with threads := t } rfl).1
    have h2 := ih (gridValues.foldl (fun s b => tuneCandidate P b s) { s with threads := t })
    have h3 := RunSpec.append P _ _ _ _ _ (RunSpec.append P _ _ _ _ _ h0 h1) h2
    simpa [List.flatMap_cons] using h3

theorem tune_eq_foldl (P : Platform σ Img G α) (s : MainState σ Img G α) :
    tune P s = gridValues.foldl (fun s t =>
      gridValues.foldl (fun s b => tuneCandidate P b s) { s with threads := t }) s := by
  simp only [tune, forLoop_grid]

/-- The whole sweep runs the candidate body over `candidates`, in order. -/
theorem tune_spec (P : Platform σ Img G α) (s : MainState σ Img G α) :
    RunSpec P candidates s (tune P s) := by
  rw [tune_eq_foldl]
  exact outer_spec P gridValues s

theorem candidates_length : candidates.length = 1024 := by
  simp [candidates, gridValues, List.length_flatMap, Function.comp_def]

theorem mem_candidates (c : Nat × Nat) (h : c ∈ candidates) : InGrid c.1 ∧ InGrid c.2 := by
  simp only [candidates, List.mem_flatMap, List.mem_map] at h
  obtain ⟨t, ht, b, hb, rfl⟩ := h
  exact ⟨mem_gridValues t ht, mem_gridValues b hb⟩

end

section
variable {α : Type} [LinearOrder α]

theorem foldl_pickBest_concat (init e : Nat × Nat × α) (l : List (Nat × Nat × α)) :
    (l ++ [e]).foldl pickBest init = pickBest (l.foldl pickBest init) e := by
  rw [List.foldl_append]; rfl

/-- The fold of `pickBest` keeps the first entry of smallest latency, when
one lies strictly below the initial value, and the initial triple otherwise. -/
theorem foldl_pickBest_spec (init : Nat × Nat × α) (l : List (Nat × Nat × α)) :
    (∀ e ∈ l, (l.foldl pickBest init).2.2 ≤ e.2.2) ∧
    (l.foldl pickBest init).2.2 ≤ init.2.2 ∧
    ((l.foldl pickBest init = init ∧ ∀ e ∈ l, init.2.2 ≤ e.2.2) ∨
      ∃ i, ∃ hi : i < l.length, l.foldl pickBest init = l[i] ∧
        (l.foldl pickBest init).2.2 < init.2.2 ∧
        ∀ j, ∀ hj : j < i, (l.foldl pickBest init).2.2 < (l[j]).2.2) := by
  induction l using List.reverseRecOn with
  | nil => simp
  | append_singleton l e ih =>
    obtain ⟨h1, h2, h3⟩ := ih
    rw [foldl_pickBest_concat]
    generalize List.foldl pickBest init l = r at h1 h2 h3 ⊢
    by_cases hlt : e.2.2 < r.2.2
    · have hp : pickBest r e = e := by simp [pickBest, hlt]
      rw [hp]
      refine ⟨?_, le_trans (le_of_lt hlt) h2, Or.inr ⟨l.length, by simp, by simp, ?_, ?_⟩⟩
      · intro x hx
        rcases List.mem_append.1 hx with h | h
        · exact le_trans (le_of_lt hlt) (h1 x h)
        · obtain rfl : x = e := by simpa using h
          exact le_refl _
      · exact lt_of_lt_of_le hlt h2
      · intro j hj
        rw [List.getElem_append_left hj]
        exact lt_of_lt_of_le hlt (h1 _ (List.getElem_mem _))
    · have hp : pickBest r e = r := by simp [pickBest, hlt]
      rw [hp]
      have hre : r.2.2 ≤ e.2.2 := not_lt.1 hlt
      refine ⟨?_, h2, ?_⟩
      · intro x hx
        rcases List.mem_append.1 hx with h | h
        · exact h1 x h
        · obtain rfl : x = e := by simpa using h
          exact hre
      · rcases h3 with ⟨h4, h5⟩ | ⟨i, hi, h4, h5, h6⟩
        · left
          refine ⟨h4, ?_⟩
          intro x hx
          rcases List.mem_append.1 hx with h | h
          · exact h5 x h
          · obtain rfl : x = e := by simpa using h
            rw [← h4]; exact hre
        · right
          refine ⟨i, by simp; omega, ?_, h5, ?_⟩
          · rw [List.getElem_append_left hi]; exact h4
          · intro j hj
            rw [List.getElem_append_left (by omega)]
            exact h6 j hj

theorem foldl_pickBest_first (init : Nat × Nat × α) (l : List (Nat × Nat × α))
    (h : ∃ e ∈ l, e.2.2 < init.2.2) :
    ∃ i, ∃ hi : i < l.length, l.foldl pickBest init = l[i] ∧
      (∀ e ∈ l, (l[i]).2.2 ≤ e.2.2) ∧ ∀ j, ∀ hj : j < i, (l[i]).2.2 < (l[j]).2.2 := by
  obtain ⟨h1, -, h3⟩ := foldl_pickBest_spec init l
  rcases h3 with ⟨-, h5⟩ | ⟨i, hi, h4, -, h6⟩
  · obtain ⟨e, he, hlt⟩ := h
    exact absurd hlt (not_lt.2 (h5 e he))
  · exact ⟨i, hi, h4, by rw [← h4]; exact h1, by rw [← h4]; exact h6⟩

theorem foldl_pickBest_mem (init : Nat × Nat × α) (l : List (Nat × Nat × α)) :
    l.foldl pickBest init = init ∨ l.foldl pickBest init ∈ l := by
  obtain ⟨-, -, h3⟩ := foldl_pickBest_spec init l
  rcases h3 with ⟨h4, -⟩ | ⟨i, hi, h4, -, -⟩
  · exact Or.inl h4
  · exact Or.inr (h4 ▸ List.getElem_mem _)

end

section
variable {σ Img G α : Type} [Group G] [LinearOrder α]

theorem tuningBlock_spec (P : Platform σ Img G α) (argv2 : Option Str)
    (s : MainState σ Img G α) :
    BlockSpec P (decide (argv2 = some ['-', 'v'])) s (tuningBlock P argv2 s) := by
  unfold tuningBlock
  by_cases h : argv2 = some ['-', 'v']
  · simp only [if_pos h, h, decide_True, if_true]
    generalize hs1 : ({ s with
      mean := P.fltMax, count := 0, threads := 224, blocks := 96,
      bestThreads := 224, bestBlocks := 96, best := P.fltMax } : MainState σ Img G α) = s1
    have e : SameTracking s s1 ∧ s1.sweep = s.sweep ∧ s1.tuneCalls = s.tuneCalls ∧
        s1.bestThreads = 224 ∧ s1.bestBlocks = 96 ∧ s1.best = P.fltMax := by
      subst hs1; exact ⟨⟨rfl, rfl, rfl, rfl, rfl, rfl, rfl⟩, rfl, rfl, rfl, rfl, rfl⟩
    obtain ⟨e1, e2, e3, e4, e5, e6⟩ := e
    obtain ⟨a1, ⟨n1, a2, a3, a4, a5⟩, ⟨m1, a6, a7, a8⟩⟩ := tune_spec P s1
    generalize tune P s1 = s2 at a1 a2 a5 a6
    refine ⟨?_, rfl, rfl, ⟨n1, ?_, a3, a4, ?_⟩, ⟨m1, ?_, ?_, fun c hc => (a8 c hc).1⟩⟩
    · obtain ⟨b1, b2, b3, b4, b5, b6, b7⟩ := e1.trans a1
      exact ⟨b1, b2, b3, b4, b5, b6, b7⟩
    · show s2.sweep = _
      rw [a2, e2]
    · show (s2.bestThreads, s2.bestBlocks, s2.best) = _
      rw [a5, e4, e5, e6]
    · show s2.tuneCalls = _
      rw [a6, e3]
    · rw [a7, candidates_length]; rfl
  · simp only [if_neg h, h, decide_False]
    exact ⟨⟨rfl, rfl, rfl, rfl, rfl, rfl, rfl⟩, rfl, rfl, ⟨[], by simp, rfl, by simp, rfl⟩,
      ⟨[], by simp, rfl, by simp⟩⟩

theorem BlockSpec.inGrid (P : Platform σ Img G α) (swept : Bool) (s s' : MainState σ Img G α)
    (h : BlockSpec P swept s s') : InGrid s'.threads ∧ InGrid s'.blocks := by
  obtain ⟨-, h1, h2, ⟨new, -, h3, -, h4⟩, -⟩ := h
  rw [h1, h2]
  have hd : InGrid 224 ∧ InGrid 96 := by
    refine ⟨⟨by decide, by decide, by decide⟩, ⟨by decide, by decide, by decide⟩⟩
  rcases foldl_pickBest_mem (224, 96, P.fltMax) new with h5 | h5
  · rw [h5] at h4
    simp only [Prod.mk.injEq] at h4
    rw [h4.1, h4.2.1]; exact hd
  · rw [← h4] at h5
    have : (s'.bestThreads, s'.bestBlocks) ∈ new.map (fun e => (e.1, e.2.1)) :=
      List.mem_map.2 ⟨_, h5, rfl⟩
    rw [h3] at this
    cases swept with
    | true => exact mem_candidates _ (by simpa using this)
    | false => simp at this

end

/-! ## Lemmas on the tracking loop -/

section
variable {σ Img G α : Type} [Group G]

omit [Group G] in
theorem load_done (P : Platform σ Img G α) (directory : Str) (lf : Nat) (asFile : IStream)
    (st : MainState σ Img G α) (v : Slot) (r : IStream × MainState σ Img G α × Nat)
    (h : st.load P directory lf asFile v = .done r) :
    loadDepth P directory lf asFile (st.deref v) = .done (r.1, (r.2.1.deref v), r.2.2) ∧
      r.2.1 = st.store v (r.2.1.deref v) := by
  unfold MainState.load at h
  rw [Outcome.bind_eq_done] at h
  obtain ⟨a, ha, hb⟩ := h
  simp only [Outcome.done.injEq] at hb
  subst hb
  cases v <;> exact ⟨ha, rfl⟩

omit [Group G] in
theorem load_of_loadDepth (P : Platform σ Img G α) (directory : Str) (lf : Nat)
    (asFile asFile' : IStream) (st : MainState σ Img G α) (v : Slot) (img : Img) (t : Nat)
    (h : loadDepth P directory lf asFile (st.deref v) = .done (asFile', img, t)) :
    st.load P directory lf asFile v = .done (asFile', st.store v img, t) := by
  unfold MainState.load
  rw [h]; rfl

theorem trackCycle_done (P : Platform σ Img G α) (directory : Str) (lf : Nat)
    (asFile : IStream) (st : MainState σ Img G α) (r : IStream × MainState σ Img G α)
    (h : trackCycle P directory lf asFile st = .done r) :
    ∃ img t, r.2 = nextState P st img t ∧
      loadDepth P directory lf asFile ((trackStep P st).deref (trackStep P st).secondRaw)
        = .done (r.1, img, t) := by
  unfold trackCycle at h
  rw [Outcome.bind_eq_done] at h
  obtain ⟨a, ha, hb⟩ := h
  obtain ⟨h1, h2⟩ := load_done P directory lf asFile _ _ a ha
  simp only [Outcome.done.injEq] at hb
  subst hb
  refine ⟨_, a.2.2, ?_, h1⟩
  simp only [nextState]
  rw [← h2]

theorem trackCycle_of_loadDepth (P : Platform σ Img G α) (directory : Str) (lf : Nat)
    (asFile asFile' : IStream) (st : MainState σ Img G α) (img : Img) (t : Nat)
    (h : loadDepth P directory lf asFile ((trackStep P st).deref (trackStep P st).secondRaw)
      = .done (asFile', img, t)) :
    trackCycle P directory lf asFile st = .done (asFile', nextState P st img t) := by
  unfold trackCycle
  simp only []
  rw [load_of_loadDepth P directory lf asFile asFile' _ _ img t h]
  rfl

theorem trackingLoop_succ (P : Platform σ Img G α) (directory : Str) (lf fuel : Nat)
    (asFile : IStream) (st : MainState σ Img G α) :
    trackingLoop P directory lf (fuel + 1) asFile st =
      if !asFile.eof then
        (trackCycle P directory lf asFile st).bind fun r =>
          trackingLoop P directory lf fuel r.1 r.2
      else .done (asFile, st) := rfl

/-- A property kept by every turn of the tracking loop holds when the loop
is left. -/
theorem trackingLoop_invariant (P : Platform σ Img G α) (directory : Str) (lf : Nat)
    (I : MainState σ Img G α → Prop)
    (hstep : ∀ st img t, I st → I (nextState P st img t))
    (fuel : Nat) (asFile : IStream) (st : MainState σ Img G α)
    (r : IStream × MainState σ Img G α) (hI : I st)
    (h : trackingLoop P directory lf fuel asFile st = .done r) : I r.2 := by
  induction fuel generalizing asFile st with
  | zero => simp [trackingLoop] at h
  | succ n ih =>
    rw [trackingLoop_succ] at h
    split at h
    · rw [Outcome.bind_eq_done] at h
      obtain ⟨a, ha, hb⟩ := h
      obtain ⟨img, t, h1, -⟩ := trackCycle_done P directory lf asFile st a ha
      exact ih a.1 a.2 (h1 ▸ hstep st img t hI) hb
    · simp only [Outcome.done.injEq] at h
      subst h; exact hI

theorem nextState_sameTuning (P : Platform σ Img G α) (s0 st : MainState σ Img G α)
    (img : Img) (t : Nat) (h : SameTuning s0 st) : SameTuning s0 (nextState P st img t) := by
  obtain ⟨h1, h2, h3, h4, h5, h6, h7⟩ := h
  unfold nextState
  cases hv : (trackStep P st).secondRaw <;> exact ⟨h1, h2, h3, h4, h5, h6, h7⟩

end

section
variable {σ Img G α : Type} [Group G]

theorem nextState_cycles (P : Platform σ Img G α) (st : MainState σ Img G α) (img : Img)
    (t : Nat) : (nextState P st img t).cycles = st.cycles ++ [(alignStep P st).2] := by
  unfold nextState
  cases hv : (trackStep P st).secondRaw <;> rfl

theorem nextState_file (P : Platform σ Img G α) (st : MainState σ Img G α) (img : Img)
    (t : Nat) : (nextState P st img t).file
      = st.file ++ [(st.timestamp, (alignStep P st).2.T_wc_curr)] := by
  unfold nextState
  cases hv : (trackStep P st).secondRaw <;> rfl

theorem nextState_fields (P : Platform σ Img G α) (st : MainState σ Img G α) (img : Img)
    (t : Nat) : (nextState P st img t).threads = st.threads ∧
      (nextState P st img t).blocks = st.blocks ∧
      (nextState P st img t).T_wc_curr = (alignStep P st).2.T_wc_curr ∧
      (nextState P st img t).firstRaw = st.secondRaw ∧
      (nextState P st img t).secondRaw = st.firstRaw ∧
      (nextState P st img t).timestamp = t := by
  unfold nextState
  cases hv : (trackStep P st).secondRaw <;> exact ⟨rfl, rfl, rfl, rfl, rfl, rfl⟩

theorem nextState_deref (P : Platform σ Img G α) (st : MainState σ Img G α) (img : Img)
    (t : Nat) (hne : st.firstRaw ≠ st.secondRaw) :
    (nextState P st img t).deref st.secondRaw = st.deref st.secondRaw ∧
      (nextState P st img t).deref st.firstRaw = img := by
  have h : (trackStep P st).secondRaw = st.firstRaw := rfl
  unfold nextState
  rw [h]
  cases h1 : st.firstRaw <;> cases h2 : st.secondRaw <;>
    first
    | exact absurd (h1.trans h2.symm) hne
    | exact ⟨rfl, rfl⟩

theorem alignStep_step (P : Platform σ Img G α) (st : MainState σ Img G α) :
    (alignStep P st).2.T_wc_curr = (alignStep P st).2.T_wc_prev * (alignStep P st).2.T_prev_curr ∧
      (∃ s, (alignStep P st).2.T_prev_curr = (P.getIncrementalTransformation s
        (alignStep P st).2.guess (alignStep P st).2.threads (alignStep P st).2.blocks).2) ∧
      (alignStep P st).2.T_wc_prev = st.T_wc_curr ∧
      (alignStep P st).2.threads = st.threads ∧ (alignStep P st).2.blocks = st.blocks ∧
      (alignStep P st).2.modelSlot = st.firstRaw ∧ (alignStep P st).2.obsSlot = st.secondRaw ∧
      (alignStep P st).2.model = st.deref st.firstRaw ∧
      (alignStep P st).2.obs = st.deref st.secondRaw ∧
      (alignStep P st).2.timestamp = st.timestamp :=
  ⟨rfl, ⟨_, rfl⟩, rfl, rfl, rfl, rfl, rfl, rfl, rfl, rfl⟩

theorem nextState_trackInv (P : Platform σ Img G α) (st : MainState σ Img G α) (img : Img)
    (t : Nat) (h : TrackInv P st) : TrackInv P (nextState P st img t) := by
  obtain ⟨h1, h2, h3, h4, h5, h6, h7, h8⟩ := h
  obtain ⟨a1, a2, a3, a4, a5, a6, a7, a8, a9, a10⟩ := alignStep_step P st
  obtain ⟨f1, f2, f3, f4, f5, f6⟩ := nextState_fields P st img t
  obtain ⟨d1, d2⟩ := nextState_deref P st img t h7.1
  have hc := nextState_cycles P st img t
  have hf := nextState_file P st img t
  have hg := alignStep_guess P st
  generalize (alignStep P st).2 = c0 at *
  generalize nextState P st img t = s' at *
  refine ⟨?_, ?_, ?_, ?_, ?_, ?_, ?_, ?_⟩
  · intro c hm
    rw [hc] at hm
    rcases List.mem_append.1 hm with hm | hm
    · rw [f1, f2]; exact h1 c hm
    · obtain rfl : c = c0 := by simpa using hm
      rw [f1, f2]; exact ⟨a4, a5⟩
  · intro c hm
    rw [hc] at hm
    rcases List.mem_append.1 hm with hm | hm
    · exact h2 c hm
    · obtain rfl : c = c0 := by simpa using hm
      exact hg
  · intro c hm
    rw [hc] at hm
    rcases List.mem_append.1 hm with hm | hm
    · exact h3 c hm
    · obtain rfl : c = c0 := by simpa using hm
      exact ⟨a1, a2⟩
  · rw [hc]
    refine List.Chain'.append h4 (List.chain'_singleton _) ?_
    intro x hx y hy
    obtain rfl : c0 = y := by simpa using hy
    obtain ⟨b1, b2, b3, b4⟩ := h5 x hx
    exact ⟨a3.trans b1.symm, a6.trans b2.symm, a7.trans b3.symm, a8.trans b4.symm⟩
  · intro c hm
    rw [hc, List.getLast?_concat] at hm
    obtain rfl : c0 = c := by simpa using hm
    rw [f3, f4, f5, d1]
    exact ⟨rfl, a7, a6, a9⟩
  · refine ⟨fun he => ?_, ?_⟩
    · rw [hc] at he; simp at he
    · intro c hm
      rw [hc] at hm
      cases hcy : st.cycles with
      | nil =>
        rw [hcy] at hm
        obtain rfl : c0 = c := by simpa using hm
        rw [a3]; exact h6.1 hcy
      | cons x xs =>
        rw [hcy] at hm
        obtain rfl : x = c := by simpa using hm
        exact h6.2 x (by simp [hcy])
  · refine ⟨?_, ?_⟩
    · rw [f4, f5]; exact fun e => h7.1 e.symm
    · intro c hm
      rw [hc] at hm
      rcases List.mem_append.1 hm with hm | hm
      · exact h7.2 c hm
      · obtain rfl : c = c0 := by simpa using hm
        rw [a6, a7]; exact h7.1
  · rw [hf, hc, h8, List.map_append, ← a10]
    rfl

end

section
variable {σ Img G α : Type} [Group G] [LinearOrder α]

omit [Group G] [LinearOrder α] in
theorem store_fields (st : MainState σ Img G α) (v : Slot) (img : Img) :
    (st.store v img).firstRaw = st.firstRaw ∧ (st.store v img).secondRaw = st.secondRaw ∧
    (st.store v img).cycles = st.cycles ∧ (st.store v img).file = st.file ∧
    (st.store v img).sweep = st.sweep ∧ (st.store v img).tuneCalls = st.tuneCalls := by
  cases v <;> exact ⟨rfl, rfl, rfl, rfl, rfl, rfl⟩

theorem entry_of_block (P : Platform σ Img G α) (swept : Bool) (s s' : MainState σ Img G α)
    (h : BlockSpec P swept s s') (h1 : s.cycles = []) (h2 : s.file = [])
    (h3 : s.firstRaw = .first) (h4 : s.secondRaw = .second) (h5 : s.sweep = [])
    (h6 : s.tuneCalls = []) :
    EntrySpec P swept { s' with T_wc_prev := 1, T_wc_curr := 1 } := by
  have hg := BlockSpec.inGrid P swept s s' h
  obtain ⟨⟨-, -, a3, a4, -, a6, a7⟩, b1, b2, ⟨new, c1, c2, c3, c4⟩, ⟨m, d1, d2, d3⟩⟩ := h
  rw [h5, List.nil_append] at c1
  rw [h6, List.nil_append] at d1
  refine ⟨⟨rfl, rfl⟩, a7.trans h1, a6.trans h2, ⟨a3.trans h3, a4.trans h4⟩, hg, ⟨b1, b2⟩,
    ⟨?_, ?_, ?_⟩, ⟨?_, ?_⟩⟩
  · show s'.sweep.map _ = _
    rw [c1]; exact c2
  · show ∀ e ∈ s'.sweep, _
    rw [c1]; exact c3
  · show (s'.bestThreads, s'.bestBlocks, s'.best) = s'.sweep.foldl _ _
    rw [c1]; exact c4
  · show s'.tuneCalls.length = _
    rw [d1]; exact d2
  · show ∀ c ∈ s'.tuneCalls, _
    rw [d1]; exact d3

theorem beforeTracking_entry (P : Platform σ Img G α) (directory : Str) (argv2 : Option Str)
    (manifest : Str) (fuel : Nat) (r : IStream × MainState σ Img G α)
    (h : beforeTracking P directory argv2 manifest fuel = .done r) :
    EntrySpec P (decide (argv2 = some ['-', 'v'])) r.2 := by
  unfold beforeTracking at h
  rw [Outcome.bind_eq_done] at h
  obtain ⟨r1, h1, h⟩ := h
  rw [Outcome.bind_eq_done] at h
  obtain ⟨r2, h2, h⟩ := h
  simp only [Outcome.done.injEq] at h
  subst h
  obtain ⟨-, e1⟩ := load_done P directory fuel _ _ _ r1 h1
  obtain ⟨-, e2⟩ := load_done P directory fuel _ _ _ r2 h2
  obtain ⟨a1, a2, a3, a4, a5, a6⟩ := store_fields (initState P) .first (r1.2.1.deref .first)
  rw [← e1] at a1 a2 a3 a4 a5 a6
  obtain ⟨b1, b2, b3, b4, b5, b6⟩ :=
    store_fields r1.2.1 r1.2.1.secondRaw (r2.2.1.deref r1.2.1.secondRaw)
  rw [← e2] at b1 b2 b3 b4 b5 b6
  exact entry_of_block P _ _ _ (tuningBlock_spec P argv2 _) (b3.trans a3) (b4.trans a4)
    (b1.trans a1) (b2.trans a2) (b5.trans a5) (b6.trans a6)

theorem entry_trackInv (P : Platform σ Img G α) (swept : Bool) (s : MainState σ Img G α)
    (h : EntrySpec P swept s) : TrackInv P s := by
  obtain ⟨h1, h2, h3, h4, -, -, -, -⟩ := h
  refine ⟨?_, ?_, ?_, ?_, ?_, ⟨fun _ => h1.2, ?_⟩, ⟨?_, ?_⟩, ?_⟩
  all_goals first
    | (rw [h2]; simp; done)
    | (rw [h3, h2]; rfl)
    | (rw [h4.1, h4.2]; decide)

theorem main_done (P : Platform σ Img G α) (argv1 : Str) (argv2 : Option Str)
    (manifest : Str) (fuel : Nat) (st : MainState σ Img G α) :
    main P argv1 argv2 manifest fuel = .done st ↔
      ∃ directory r0 s, directoryOf argv1 = .done directory ∧
        beforeTracking P directory argv2 manifest fuel = .done r0 ∧
        trackingLoop P directory fuel fuel r0.1 r0.2 = .done (s, st) := by
  unfold main
  constructor
  · intro h
    rw [Outcome.bind_eq_done] at h
    obtain ⟨d, hd, h⟩ := h
    rw [Outcome.bind_eq_done] at h
    obtain ⟨r0, h0, h⟩ := h
    rw [Outcome.bind_eq_done] at h
    obtain ⟨r, hr, h⟩ := h
    simp only [Outcome.done.injEq] at h
    subst h
    exact ⟨d, r0, r.1, hd, h0, hr⟩
  · rintro ⟨d, r0, s, hd, h0, hr⟩
    rw [hd]
    simp only [Outcome.bind, h0, hr]

/-- What holds at the end of every run of `main` that finishes. -/
theorem main_spec (P : Platform σ Img G α) (argv1 : Str) (argv2 : Option Str)
    (manifest : Str) (fuel : Nat) (st : MainState σ Img G α)
    (h : main P argv1 argv2 manifest fuel = .done st) :
    ∃ s0, EntrySpec P (decide (argv2 = some ['-', 'v'])) s0 ∧ TrackInv P st ∧
      SameTuning s0 st := by
  obtain ⟨d, r0, s, -, h0, hr⟩ := (main_done P argv1 argv2 manifest fuel st).1 h
  have he := beforeTracking_entry P d argv2 manifest fuel r0 h0
  refine ⟨r0.2, he, ?_, ?_⟩
  · exact trackingLoop_invariant P d fuel (TrackInv P) (nextState_trackInv P) fuel r0.1 r0.2
      (s, st) (entry_trackInv P _ _ he) hr
  · exact trackingLoop_invariant P d fuel (SameTuning r0.2)
      (fun st img t hh => nextState_sameTuning P r0.2 st img t hh) fuel r0.1 r0.2 (s, st)
      ⟨rfl, rfl, rfl, rfl, rfl, rfl, rfl⟩ hr

end

/-! ## The tracking loop on a manifest of data lines -/

theorem getline_manifest (nl : Bool) (l : Str) (ls : List Str) (cur : Str) (h : '\n' ∉ l)
    (hne : l ≠ []) :
    getline { rest := manifestText nl (l :: ls), eofbit := false, failbit := false } cur
      = (afterLine nl ls, l) := by
  cases ls with
  | nil =>
    cases nl with
    | true => exact getline_line l [] cur h
    | false => exact getline_last l cur h hne
  | cons l2 ls => exact getline_line l _ cur h

theorem alignedFrames_cons (nl : Bool) {Img : Type} (f g h : Frame Img) (rest : List (Frame Img)) :
    alignedFrames nl (f :: g :: h :: rest) = f :: alignedFrames nl (g :: h :: rest) := by
  cases nl <;> simp [alignedFrames, List.dropLast]

theorem alignedFrames_cons_cons (nl : Bool) {Img : Type} (g h : Frame Img)
    (rest : List (Frame Img)) :
    ∃ X, alignedFrames nl (g :: h :: rest) = g :: X := by
  cases nl <;> simp [alignedFrames, List.dropLast]

section
variable {σ Img G α : Type} [Group G]

theorem nextState_view (P : Platform σ Img G α) (st : MainState σ Img G α) (img : Img)
    (t : Nat) : (nextState P st img t).cycles.map Step.view
      = st.cycles.map Step.view ++
        [(st.deref st.firstRaw, st.deref st.secondRaw, st.timestamp)] := by
  rw [nextState_cycles, List.map_append]; rfl

theorem trackingLoop_cycle (P : Platform σ Img G α) (directory : Str) (lf fuel : Nat)
    (asFile a' : IStream) (st st' : MainState σ Img G α)
    (hc : trackCycle P directory lf asFile st = .done (a', st')) (he : asFile.eof = false) :
    trackingLoop P directory lf (fuel + 1) asFile st = trackingLoop P directory lf fuel a' st' := by
  rw [trackingLoop_succ, he, hc]; rfl

theorem trackingLoop_eof (P : Platform σ Img G α) (directory : Str) (lf fuel : Nat)
    (asFile : IStream) (st : MainState σ Img G α) (he : asFile.eof = true) :
    trackingLoop P directory lf (fuel + 1) asFile st = .done (asFile, st) := by
  rw [trackingLoop_succ, he]; rfl

/-- The tracking loop over the remaining lines of a manifest of data lines:
`f` is the frame in the model buffer, `g` the frame in the observation
buffer. -/
theorem track_frames (P : Platform σ Img G α) (directory : Str) (nl : Bool) (lf : Nat)
    (hlf : 1 ≤ lf) (rest : List (Frame Img)) (hv : ∀ f ∈ rest, f.Valid P directory)
    (f g : Frame Img) (st : MainState σ Img G α) (fuel : Nat) (hfuel : rest.length + 2 ≤ fuel)
    (hm : st.deref st.firstRaw = f.image) (ho : st.deref st.secondRaw = g.image)
    (ht : st.timestamp = g.time) (hne : st.firstRaw ≠ st.secondRaw) :
    ∃ s st', trackingLoop P directory lf fuel (afterLine nl (rest.map Frame.line)) st
        = .done (s, st') ∧
      st'.cycles.map Step.view
        = st.cycles.map Step.view ++ frameViews (alignedFrames nl (f :: g :: rest)) := by
  obtain ⟨lf, rfl⟩ : ∃ k, lf = k + 1 := ⟨lf - 1, by omega⟩
  induction rest generalizing f g st fuel with
  | nil =>
    obtain ⟨n, rfl⟩ : ∃ n, fuel = n + 2 := ⟨fuel - 2, by simp at hfuel; omega⟩
    cases nl with
    | false =>
      refine ⟨_, st, rfl, ?_⟩
      simp [alignedFrames, frameViews]
    | true =>
      have hl := loadDepth_blank P directory lf (afterLine true [])
        { rest := [], eofbit := true, failbit := true }
        ((trackStep P st).deref (trackStep P st).secondRaw) [] (getline_end []) rfl
      have hc := trackCycle_of_loadDepth P directory (lf + 1) _ _ st _ _ hl
      refine ⟨{ rest := [], eofbit := true, failbit := true },
        nextState P st ((trackStep P st).deref (trackStep P st).secondRaw) 0, ?_, ?_⟩
      · exact (trackingLoop_cycle P directory (lf + 1) (n + 1) _ _ st _ hc rfl).trans
          (trackingLoop_eof P directory (lf + 1) n _ _ rfl)
      · rw [nextState_view, hm, ho, ht]
        simp [alignedFrames, frameViews]
  | cons h rest ih =>
    obtain ⟨n, rfl⟩ : ∃ n, fuel = n + 1 := ⟨fuel - 1, by simp at hfuel; omega⟩
    have hvh := hv h (List.mem_cons_self _ _)
    have hg := getline_manifest nl h.line (rest.map Frame.line) []
      (Frame.no_newline P directory h hvh) (Frame.line_ne_nil h)
    have hl := loadDepth_frame P directory lf _ _
      ((trackStep P st).deref (trackStep P st).secondRaw) h hvh hg
    have hc := trackCycle_of_loadDepth P directory (lf + 1) _ _ st _ _ hl
    obtain ⟨f1, f2, f3, f4, f5, f6⟩ := nextState_fields P st h.image h.time
    obtain ⟨d1, d2⟩ := nextState_deref P st h.image h.time hne
    obtain ⟨s, st', h1, h2⟩ := ih (fun x hx => hv x (List.mem_cons_of_mem _ hx)) g h
      (nextState P st h.image h.time) n (by simp at hfuel ⊢; omega)
      (by rw [f4, d1]; exact ho) (by rw [f5, d2]) f6 (by rw [f4, f5]; exact fun e => hne e.symm)
    refine ⟨s, st', ?_, ?_⟩
    · exact (trackingLoop_cycle P directory (lf + 1) n _ _ st _ hc rfl).trans h1
    · rw [h2, nextState_view, hm, ho, ht, alignedFrames_cons]
      obtain ⟨X, hX⟩ := alignedFrames_cons_cons nl g h rest
      rw [hX]
      simp [frameViews]

end

section
variable {σ Img G α : Type} [Group G] [LinearOrder α]

theorem beforeTracking_frames (P : Platform σ Img G α) (directory : Str) (argv2 : Option Str)
    (nl : Bool) (f g : Frame Img) (rest : List (Frame Img))
    (hf : f.Valid P directory) (hg : g.Valid P directory) (fuel : Nat) (hfuel : 1 ≤ fuel) :
    ∃ s0, beforeTracking P directory argv2
        (manifestText nl ((f :: g :: rest).map Frame.line)) fuel
        = .done (afterLine nl (rest.map Frame.line), s0) ∧
      s0.deref s0.firstRaw = f.image ∧ s0.deref s0.secondRaw = g.image ∧
      s0.timestamp = g.time := by
  obtain ⟨lf, rfl⟩ : ∃ k, fuel = k + 1 := ⟨fuel - 1, by omega⟩
  have g1 := getline_manifest nl f.line (g.line :: rest.map Frame.line) []
    (Frame.no_newline P directory f hf) (Frame.line_ne_nil f)
  have g2 := getline_manifest nl g.line (rest.map Frame.line) []
    (Frame.no_newline P directory g hg) (Frame.line_ne_nil g)
  have l1 := loadDepth_frame P directory lf _ _ ((initState P).deref .first) f hf g1
  have l2 := loadDepth_frame P directory lf _ _
    (((initState P).store .first f.image).deref .second) g hg g2
  have m1 := load_of_loadDepth P directory (lf + 1) _ _ (initState P) .first _ _ l1
  have m2 := load_of_loadDepth P directory (lf + 1) _ _ ((initState P).store .first f.image)
    .second _ _ l2
  have hb := tuningBlock_spec P argv2
    { ((initState P).store .first f.image).store .second g.image with timestamp := g.time }
  obtain ⟨b1, b2, b3, b4, b5, -, -⟩ := hb.same
  refine ⟨{ tuningBlock P argv2
      { ((initState P).store .first f.image).store .second g.image with timestamp := g.time }
      with T_wc_prev := 1, T_wc_curr := 1 }, ?_, ?_, ?_, ?_⟩
  · unfold beforeTracking
    simp only [List.map_cons, openFile]
    rw [m1]
    simp only [Outcome.bind]
    have e : ((initState P).store Slot.first f.image).secondRaw = .second := rfl
    rw [e]
    simp only [afterLine]
    simp only [afterLine] at m2
    rw [m2]
  · show MainState.deref _ (tuningBlock P argv2 _).firstRaw = _
    rw [b3]
    show (tuningBlock P argv2 _).firstData = _
    rw [b1]; rfl
  · show MainState.deref _ (tuningBlock P argv2 _).secondRaw = _
    rw [b4]
    show (tuningBlock P argv2 _).secondData = _
    rw [b2]; rfl
  · show (tuningBlock P argv2 _).timestamp = _
    rw [b5]

/-- A manifest of `N ≥ 2` data lines is processed to the end: the cycles
align each frame, as observation, with the frame of the line before it. -/
theorem main_frames (P : Platform σ Img G α) (argv1 directory : Str)
    (hd : directoryOf argv1 = .done directory) (argv2 : Option Str) (nl : Bool)
    (fs : List (Frame Img)) (hv : ∀ f ∈ fs, f.Valid P directory) (hN : 2 ≤ fs.length)
    (fuel : Nat) (hfuel : fs.length ≤ fuel) :
    ∃ st, main P argv1 argv2 (manifestText nl (fs.map Frame.line)) fuel = .done st ∧
      st.cycles.map Step.view = frameViews (alignedFrames nl fs) := by
  obtain ⟨f, g, rest, rfl⟩ : ∃ f g rest, fs = f :: g :: rest := by
    match fs, hN with
    | f :: g :: rest, _ => exact ⟨f, g, rest, rfl⟩
  simp only [List.length_cons] at hfuel
  obtain ⟨s0, h0, h1, h2, h3⟩ := beforeTracking_frames P directory argv2 nl f g rest
    (hv f (by simp)) (hv g (by simp)) fuel (by omega)
  have he := beforeTracking_entry P directory argv2 _ fuel _ h0
  obtain ⟨s, st, h4, h5⟩ := track_frames P directory nl fuel (by omega) rest
    (fun x hx => hv x (by simp [hx])) f g s0 fuel (by omega) h1 h2 h3
    (by rw [he.views.1, he.views.2]; decide)
  refine ⟨st, (main_done P argv1 argv2 _ fuel st).2 ⟨directory, _, s, hd, h0, h4⟩, ?_⟩
  rw [h5, he.cycles]; rfl

end

/-! ## Properties of every run that finishes -/

theorem chain_getElem {β : Type} (R : β → β → Prop) (l : List β) (h : List.Chain' R l)
    (n : Nat) (hn : n + 1 < l.length) : R (l[n]) (l[n + 1]) := by
  have := (List.chain'_iff_get.1 h) n (by omega)
  simpa using this

set_option maxRecDepth 100000 in
theorem candidates_eq :
    candidates = (List.range 1024).map fun i => (16 * (i / 32 + 1), 16 * (i % 32 + 1)) := by
  decide

section
variable {σ Img G α : Type} [Group G] [LinearOrder α]

/-- C1. Pose chain of the tracking loop: in every run of `main` that
finishes, both poses are the identity on entering the loop; every cycle ends
with `T_wc_curr = T_wc_prev * T_prev_curr`, where `T_prev_curr` is what the
primitive returned for the guess it was given; the previous pose of a cycle
is the current pose of the cycle before it, and the previous pose of the
first cycle is the identity.  The last part is the same fact for one turn of
the loop from any state, finished run or not. -/
theorem pose_chain (P : Platform σ Img G α) (argv1 : Str) (argv2 : Option Str)
    (manifest : Str) (fuel : Nat) (st : MainState σ Img G α)
    (h : main P argv1 argv2 manifest fuel = .done st) :
    (∃ directory r, directoryOf argv1 = .done directory ∧
      beforeTracking P directory argv2 manifest fuel = .done r ∧
      r.2.T_wc_prev = 1 ∧ r.2.T_wc_curr = 1 ∧ r.2.cycles = []) ∧
    (∀ c ∈ st.cycles, c.T_wc_curr = c.T_wc_prev * c.T_prev_curr ∧
      ∃ s, c.T_prev_curr = (P.getIncrementalTransformation s c.guess c.threads c.blocks).2) ∧
    (∀ n, ∀ hn : n + 1 < st.cycles.length,
      (st.cycles[n + 1]).T_wc_prev = (st.cycles[n]).T_wc_curr) ∧
    (∀ c ∈ st.cycles.head?, c.T_wc_prev = 1) ∧
    (∀ c ∈ st.cycles.getLast?, st.T_wc_curr = c.T_wc_curr) ∧
    (∀ (s : MainState σ Img G α) (img : Img) (t : Nat),
      (nextState P s img t).T_wc_prev = s.T_wc_curr ∧
      (nextState P s img t).T_wc_curr
        = (nextState P s img t).T_wc_prev * (alignStep P s).2.T_prev_curr) := by
  obtain ⟨s0, -, hinv, -⟩ := main_spec P argv1 argv2 manifest fuel st h
  obtain ⟨d, r0, s, hd, h0, -⟩ := (main_done P argv1 argv2 manifest fuel st).1 h
  have he := beforeTracking_entry P d argv2 manifest fuel r0 h0
  refine ⟨⟨d, r0, hd, h0, he.poses.1, he.poses.2, he.cycles⟩, hinv.step, ?_, hinv.first.2, ?_,
    ?_⟩
  · intro n hn
    exact (chain_getElem Linked st.cycles hinv.chain n hn).1
  · intro c hc
    exact (hinv.last c hc).1.symm
  · intro s img t
    unfold nextState
    cases (trackStep P s).secondRaw <;> exact ⟨rfl, rfl⟩

/-- C4. The launch configuration used for tracking lies in the declared grid,
whatever latencies were measured: `threads` and `blocks` are multiples of 16
between 16 and 512, every cycle is run with them, and they are 224 and 96
when the sweep is skipped.  The last part says the same of the tuning block
run from any state. -/
theorem launch_config_in_grid (P : Platform σ Img G α) (argv1 : Str) (argv2 : Option Str)
    (manifest : Str) (fuel : Nat) (st : MainState σ Img G α)
    (h : main P argv1 argv2 manifest fuel = .done st) :
    InGrid st.threads ∧ InGrid st.blocks ∧
    (∀ c ∈ st.cycles, c.threads = st.threads ∧ c.blocks = st.blocks) ∧
    (argv2 ≠ some ['-', 'v'] → st.threads = 224 ∧ st.blocks = 96) ∧
    (∀ s : MainState σ Img G α,
      InGrid (tuningBlock P argv2 s).threads ∧ InGrid (tuningBlock P argv2 s).blocks) := by
  obtain ⟨s0, he, hinv, hs⟩ := main_spec P argv1 argv2 manifest fuel st h
  obtain ⟨e1, e2, e3, e4, e5, e6, e7⟩ := hs
  refine ⟨e1 ▸ he.inGrid.1, e2 ▸ he.inGrid.2, hinv.cfg, ?_,
    fun s => BlockSpec.inGrid P _ _ _ (tuningBlock_spec P argv2 s)⟩
  intro hne
  obtain ⟨c1, -, c3⟩ := he.sel
  simp only [hne, decide_False, Bool.false_eq_true, if_false, List.map_eq_nil_iff] at c1
  rw [c1] at c3
  simp only [List.foldl_nil, Prod.mk.injEq] at c3
  rw [e1, e2, he.config.1, he.config.2, c3.1, c3.2.1]
  exact ⟨rfl, rfl⟩

/-- C5. The sweep keeps the first candidate of smallest mean latency: with
`-v` the candidates are tried in the order of `candidates` (threads outer,
blocks inner, both running over 16, 32, ..., 512; 1024 in all), `sweep` holds
their mean latencies in that order, and when some latency is strictly below
the initial best the configuration selected and used for tracking is the
entry of `sweep` of least index among those of least latency, `best` being
that latency; when none is, the defaults 224 and 96 stay. -/
theorem tuner_first_argmin (P : Platform σ Img G α) (argv1 : Str) (manifest : Str)
    (fuel : Nat) (st : MainState σ Img G α)
    (h : main P argv1 (some ['-', 'v']) manifest fuel = .done st) :
    (st.sweep.map fun e => (e.1, e.2.1)) = candidates ∧
    (candidates = (List.range 1024).map fun i => (16 * (i / 32 + 1), 16 * (i % 32 + 1))) ∧
    st.threads = st.bestThreads ∧ st.blocks = st.bestBlocks ∧
    ((∃ e ∈ st.sweep, e.2.2 < P.fltMax) →
      ∃ i, ∃ hi : i < st.sweep.length,
        st.sweep[i] = (st.bestThreads, st.bestBlocks, st.best) ∧
        (∀ e ∈ st.sweep, st.best ≤ e.2.2) ∧
        ∀ j, ∀ hj : j < i, st.best < (st.sweep[j]).2.2) ∧
    ((∀ e ∈ st.sweep, P.fltMax ≤ e.2.2) →
      st.bestThreads = 224 ∧ st.bestBlocks = 96 ∧ st.best = P.fltMax) := by
  obtain ⟨s0, he, -, hs⟩ := main_spec P argv1 (some ['-', 'v']) manifest fuel st h
  obtain ⟨e1, e2, e3, e4, e5, e6, e7⟩ := hs
  obtain ⟨c1, -, c3⟩ := he.sel
  simp only [decide_True, if_true] at c1
  rw [← e3, ← e4, ← e5, ← e6] at c3
  rw [← e6] at c1
  refine ⟨c1, candidates_eq, ?_, ?_, ?_, ?_⟩
  · rw [e1, e3]; exact he.config.1
  · rw [e2, e4]; exact he.config.2
  · intro hex
    obtain ⟨i, hi, h1, h2, h3⟩ := foldl_pickBest_first (224, 96, P.fltMax) st.sweep hex
    rw [← c3] at h1
    refine ⟨i, hi, h1.symm, ?_, ?_⟩
    · intro e hm
      have := h2 e hm
      rwa [← h1] at this
    · intro j hj
      have := h3 j hj
      rwa [← h1] at this
  · intro hall
    obtain ⟨-, -, h3⟩ := foldl_pickBest_spec (224, 96, P.fltMax) st.sweep
    rw [← c3] at h3
    rcases h3 with ⟨h4, -⟩ | ⟨i, hi, -, h5, -⟩
    · simp only [Prod.mk.injEq] at h4
      exact h4
    · have h5' : st.best < P.fltMax := h5
      obtain ⟨-, -, h6⟩ := foldl_pickBest_spec (224, 96, P.fltMax) st.sweep
      have hmem := foldl_pickBest_mem (224, 96, P.fltMax) st.sweep
      rw [← c3] at hmem
      rcases hmem with h7 | h7
      · simp only [Prod.mk.injEq] at h7
        exact h7
      · exact absurd h5' (not_lt.2 (hall _ h7))

end

/-! ## Properties of the runs on a manifest of data lines -/

theorem frameViews_length {Img : Type} (fs : List (Frame Img)) :
    (frameViews fs).length = fs.length - 1 := by
  induction fs with
  | nil => rfl
  | cons f fs ih =>
    cases fs with
    | nil => rfl
    | cons g rest => simp only [frameViews, List.length_cons, ih]; omega

theorem frameViews_model {Img : Type} (fs : List (Frame Img)) :
    (frameViews fs).map (fun v => v.1) = fs.dropLast.map Frame.image := by
  induction fs with
  | nil => rfl
  | cons f fs ih =>
    cases fs with
    | nil => rfl
    | cons g rest => simp only [frameViews, List.map_cons, ih, List.dropLast]

theorem frameViews_obs {Img : Type} (fs : List (Frame Img)) :
    (frameViews fs).map (fun v => v.2.1) = fs.tail.map Frame.image := by
  induction fs with
  | nil => rfl
  | cons f fs ih =>
    cases fs with
    | nil => rfl
    | cons g rest =>
      simp only [frameViews, List.map_cons, ih, List.tail_cons]

theorem frameViews_time {Img : Type} (fs : List (Frame Img)) :
    (frameViews fs).map (fun v => v.2.2) = fs.tail.map Frame.time := by
  induction fs with
  | nil => rfl
  | cons f fs ih =>
    cases fs with
    | nil => rfl
    | cons g rest =>
      simp only [frameViews, List.map_cons, ih, List.tail_cons]

theorem alignedFrames_length {Img : Type} (nl : Bool) (fs : List (Frame Img)) :
    (alignedFrames nl fs).length = if nl then fs.length else fs.length - 1 := by
  cases nl <;> simp [alignedFrames]

/-- Poses along a chain of cycles that all return `T`. -/
theorem chain_pow {Img G : Type} [Group G] (T : G) (l : List (Step Img G)) (X : G)
    (hstep : ∀ c ∈ l, c.T_wc_curr = c.T_wc_prev * T) (hchain : List.Chain' Linked l)
    (hhead : ∀ c ∈ l.head?, c.T_wc_prev = X) :
    l.map (fun c => c.T_wc_curr) = (List.range l.length).map fun k => X * T ^ (k + 1) := by
  induction l generalizing X with
  | nil => rfl
  | cons c l ih =>
    have hc : c.T_wc_curr = X * T := by
      rw [hstep c (List.mem_cons_self _ _), hhead c (by simp)]
    have := ih (X * T) (fun x hx => hstep x (List.mem_cons_of_mem _ hx)) hchain.tail
      (by
        intro y hy
        cases l with
        | nil => simp at hy
        | cons z zs =>
          obtain rfl : z = y := by simpa using hy
          rw [(List.chain'_cons.1 hchain).1.1, hc])
    rw [List.map_cons, this, hc, List.length_cons, List.range_succ_eq_map, List.map_cons,
      List.map_map]
    simp only [zero_add, pow_one, List.cons.injEq, true_and]
    apply List.map_congr_left
    intro k _
    show X * T * T ^ (k + 1) = X * T ^ (k + 1 + 1)
    rw [mul_assoc, ← pow_succ']

theorem map_view_length {Img G : Type} (l : List (Step Img G)) (vs : List (Img × Img × Nat))
    (h : l.map Step.view = vs) : l.length = vs.length := by
  rw [← h, List.length_map]

theorem map_view_parts {Img G : Type} (l : List (Step Img G)) (vs : List (Img × Img × Nat))
    (h : l.map Step.view = vs) :
    l.map (fun c => c.model) = vs.map (fun v => v.1) ∧
    l.map (fun c => c.obs) = vs.map (fun v => v.2.1) ∧
    l.map (fun c => c.timestamp) = vs.map (fun v => v.2.2) := by
  subst h
  simp only [List.map_map]
  exact ⟨rfl, rfl, rfl⟩

theorem cycles_count {Img : Type} (nl : Bool) (fs : List (Frame Img)) (hN : 2 ≤ fs.length) :
    (frameViews (alignedFrames nl fs)).length = if nl then fs.length - 1 else fs.length - 2 := by
  rw [frameViews_length, alignedFrames_length]
  cases nl
  · simp; omega
  · simp

section
variable {σ Img G α : Type} [Group G] [LinearOrder α]

omit [LinearOrder α] in
theorem file_length (P : Platform σ Img G α) (st : MainState σ Img G α) (h : TrackInv P st) :
    st.file.length = st.cycles.length := by
  rw [h.file, List.length_map]

omit [LinearOrder α] in
theorem nextState_slotInv (P : Platform σ Img G α) (st : MainState σ Img G α) (img : Img)
    (t : Nat) (h : SlotInv st) : SlotInv (nextState P st img t) := by
  obtain ⟨h1, h2⟩ := h
  obtain ⟨-, -, -, -, -, a6, a7, -, -, -⟩ := alignStep_step P st
  have hc := nextState_cycles P st img t
  refine ⟨fun he => ?_, ?_⟩
  · rw [hc] at he; simp at he
  · intro c hm
    rw [hc] at hm
    cases hcy : st.cycles with
    | nil =>
      rw [hcy] at hm
      obtain rfl : (alignStep P st).2 = c := by simpa using hm
      rw [a6, a7]; exact h1 hcy
    | cons x xs =>
      rw [hcy] at hm
      obtain rfl : x = c := by simpa using hm
      exact h2 x (by simp [hcy])

theorem main_slotInv (P : Platform σ Img G α) (argv1 : Str) (argv2 : Option Str)
    (manifest : Str) (fuel : Nat) (st : MainState σ Img G α)
    (h : main P argv1 argv2 manifest fuel = .done st) : SlotInv st := by
  obtain ⟨d, r0, s, -, h0, hr⟩ := (main_done P argv1 argv2 manifest fuel st).1 h
  have he := beforeTracking_entry P d argv2 manifest fuel r0 h0
  refine trackingLoop_invariant P d fuel SlotInv (nextState_slotInv P) fuel r0.1 r0.2
    (s, st) ⟨fun _ => he.views, ?_⟩ hr
  rw [he.cycles]; simp

/-- The trajectory on a manifest whose last line ends with a newline, where
the property of C2 holds: `N ≥ 2` lines `A.B path` and a primitive that
returns the same `T` at every call; `main` finishes, it writes `N - 1`
records and record `k` carries the pose `T ^ k`. -/
theorem stub_trajectory (P : Platform σ Img G α) (T : G)
    (hT : ∀ s g threads blocks, (P.getIncrementalTransformation s g threads blocks).2 = T)
    (argv1 directory : Str) (hd : directoryOf argv1 = .done directory) (argv2 : Option Str)
    (fs : List (Frame Img)) (hv : ∀ f ∈ fs, f.Valid P directory)
    (hN : 2 ≤ fs.length) (fuel : Nat) (hfuel : fs.length ≤ fuel) :
    ∃ st, main P argv1 argv2 (manifestText true (fs.map Frame.line)) fuel = .done st ∧
      st.file.length = fs.length - 1 ∧
      st.file.map Prod.snd = (List.range st.file.length).map fun k => T ^ (k + 1) := by
  obtain ⟨st, h, hviews⟩ := main_frames P argv1 directory hd argv2 true fs hv hN fuel hfuel
  obtain ⟨s0, -, hinv, -⟩ := main_spec P argv1 argv2 _ fuel st h
  have hlen := file_length P st hinv
  refine ⟨st, h, ?_, ?_⟩
  · rw [hlen, map_view_length _ _ hviews, cycles_count true fs hN]
    rfl
  · have hstep : ∀ c ∈ st.cycles, c.T_wc_curr = c.T_wc_prev * T := by
      intro c hc
      obtain ⟨h1, s, h2⟩ := hinv.step c hc
      rw [h1, h2, hT]
    have := chain_pow T st.cycles 1 hstep hinv.chain hinv.first.2
    rw [hlen, hinv.file, List.map_map]
    simpa using this

/-- C7 (amended). No time-stamp lag.  On a manifest of `N ≥ 2` lines
`A.B path`, the time stamp written by a cycle is the value of `timestamp`
during the cycle, set by the fetch before the pose update, and it is the time
of the observation frame of that very cycle: cycle `n` aligns the image of
line `n + 1` and writes the time of line `n + 1`.  When the times of the
lines are pairwise distinct, the time stamp written by a cycle differs from
the one written by the cycle before it, that is from the time of the
observation frame of the cycle before it. -/
theorem timestamp_of_observation (P : Platform σ Img G α) (argv1 directory : Str)
    (hd : directoryOf argv1 = .done directory) (argv2 : Option Str) (nl : Bool)
    (fs : List (Frame Img)) (hv : ∀ f ∈ fs, f.Valid P directory) (hN : 2 ≤ fs.length)
    (fuel : Nat) (hfuel : fs.length ≤ fuel) :
    ∃ st, main P argv1 argv2 (manifestText nl (fs.map Frame.line)) fuel = .done st ∧
      st.cycles.length = (if nl then fs.length - 1 else fs.length - 2) ∧
      st.file.map Prod.fst = st.cycles.map (fun c => c.timestamp) ∧
      st.cycles.map (fun c => c.obs) = (alignedFrames nl fs).tail.map Frame.image ∧
      st.file.map Prod.fst = (alignedFrames nl fs).tail.map Frame.time ∧
      ((fs.map Frame.time).Nodup →
        ∀ n, ∀ hn : n + 1 < st.file.length, (st.file[n + 1]).1 ≠ (st.file[n]).1) := by
  obtain ⟨st, h, hviews⟩ := main_frames P argv1 directory hd argv2 nl fs hv hN fuel hfuel
  obtain ⟨s0, -, hinv, -⟩ := main_spec P argv1 argv2 _ fuel st h
  obtain ⟨-, p2, p3⟩ := map_view_parts _ _ hviews
  have hf : st.file.map Prod.fst = st.cycles.map (fun c => c.timestamp) := by
    rw [hinv.file, List.map_map]; rfl
  have ht : st.file.map Prod.fst = (alignedFrames nl fs).tail.map Frame.time := by
    rw [hf, p3, frameViews_time]
  refine ⟨st, h, ?_, hf, ?_, ht, ?_⟩
  · rw [map_view_length _ _ hviews, cycles_count nl fs hN]
  · rw [p2, frameViews_obs]
  · intro hnd n hn
    have hsub : ((alignedFrames nl fs).tail.map Frame.time).Sublist (fs.map Frame.time) := by
      apply List.Sublist.map
      refine (List.tail_sublist _).trans ?_
      cases nl
      · exact List.dropLast_sublist _
      · exact List.Sublist.refl _
    have hnd2 : (st.file.map Prod.fst).Nodup := ht ▸ hnd.sublist hsub
    intro he
    have h1 : n + 1 < (st.file.map Prod.fst).length := by simpa using hn
    have h2 : n < (st.file.map Prod.fst).length := by omega
    have := (@List.Nodup.getElem_inj_iff _ _ hnd2 (n + 1) h1 n h2).1 (by simpa using he)
    omega

/-- C8. Double buffering.  In every run of `main` that finishes the two views
point at different slots in every cycle; from one cycle to the next the two
slots exchange their roles and the image that was the observation is the
model, without any copy.  On a manifest of `N ≥ 2` lines `A.B path`, cycle
`k` has the image of line `k` as model and the image of line `k + 1` as
observation. -/
theorem double_buffer_alternation (P : Platform σ Img G α) (argv1 directory : Str)
    (hd : directoryOf argv1 = .done directory) (argv2 : Option Str) (nl : Bool)
    (fs : List (Frame Img)) (hv : ∀ f ∈ fs, f.Valid P directory) (hN : 2 ≤ fs.length)
    (fuel : Nat) (hfuel : fs.length ≤ fuel) :
    (∀ manifest fuel1 st1, main P argv1 argv2 manifest fuel1 = .done st1 →
      (∀ c ∈ st1.cycles, c.modelSlot ≠ c.obsSlot) ∧
      (∀ c ∈ st1.cycles.head?, c.modelSlot = .first ∧ c.obsSlot = .second) ∧
      ∀ n, ∀ hn : n + 1 < st1.cycles.length,
        (st1.cycles[n + 1]).modelSlot = (st1.cycles[n]).obsSlot ∧
        (st1.cycles[n + 1]).obsSlot = (st1.cycles[n]).modelSlot ∧
        (st1.cycles[n + 1]).model = (st1.cycles[n]).obs) ∧
    ∃ st, main P argv1 argv2 (manifestText nl (fs.map Frame.line)) fuel = .done st ∧
      st.cycles.length = (if nl then fs.length - 1 else fs.length - 2) ∧
      st.cycles.map (fun c => c.model) = (alignedFrames nl fs).dropLast.map Frame.image ∧
      st.cycles.map (fun c => c.obs) = (alignedFrames nl fs).tail.map Frame.image := by
  constructor
  · intro manifest fuel1 st1 h1
    obtain ⟨s0, -, hinv, -⟩ := main_spec P argv1 argv2 manifest fuel1 st1 h1
    refine ⟨hinv.slots.2, ?_, ?_⟩
    · exact (main_slotInv P argv1 argv2 manifest fuel1 st1 h1).2
    · intro n hn
      exact (chain_getElem Linked st1.cycles hinv.chain n hn).2
  · obtain ⟨st, h, hviews⟩ := main_frames P argv1 directory hd argv2 nl fs hv hN fuel hfuel
    obtain ⟨p1, p2, -⟩ := map_view_parts _ _ hviews
    refine ⟨st, h, ?_, ?_, ?_⟩
    · rw [map_view_length _ _ hviews, cycles_count nl fs hN]
    · rw [p1, frameViews_model]
    · rw [p2, frameViews_obs]

end

/-! ## Time stamps -/

theorem decimalValue_foldl (B : Str) (a : Nat) :
    B.foldl (fun acc c => 10 * acc + digitVal c) a = a * 10 ^ B.length + decimalValue B := by
  induction B generalizing a with
  | nil => simp [decimalValue]
  | cons c cs ih =>
    simp only [List.foldl_cons, decimalValue, List.length_cons]
    rw [ih, ih (10 * 0 + digitVal c)]
    ring

theorem decimalValue_append (A B : Str) :
    decimalValue (A ++ B) = decimalValue A * 10 ^ B.length + decimalValue B := by
  unfold decimalValue
  rw [List.foldl_append]
  exact decimalValue_foldl B _

theorem decimalValue_ofDigits (s : Str) :
    decimalValue s = Nat.ofDigits 10 ((s.map digitVal).reverse) := by
  induction s using List.reverseRecOn with
  | nil => rfl
  | append_singleton s c ih =>
    rw [decimalValue_append, ih]
    simp [decimalValue, Nat.ofDigits_cons]
    ring

theorem digitVal_lt (c : Char) (h : c.isDigit = true) : digitVal c < 10 := by
  simp only [Char.isDigit, Bool.and_eq_true, decide_eq_true_eq] at h
  have h2 : c.val.toNat ≤ 57 := by
    have := h.2
    exact this
  unfold digitVal Char.toNat
  have : ('0' : Char).val.toNat = 48 := rfl
  omega

theorem takeWhile_all (p : Char → Bool) (s : Str) (h : ∀ c ∈ s, p c = true) :
    s.takeWhile p = s := by
  induction s with
  | nil => rfl
  | cons c cs ih =>
    rw [List.takeWhile_cons, h c (List.mem_cons_self _ _)]
    simp only [if_true]
    rw [ih (fun x hx => h x (List.mem_cons_of_mem _ hx))]

/-- The extraction `>> time` on a non-empty string of digits whose value fits
in 64 bits yields that value. -/
theorem extractUInt64_digits (s : Str) (hne : s ≠ []) (hd : ∀ c ∈ s, c.isDigit = true)
    (h64 : decimalValue s < 2 ^ 64) : extractUInt64 s = decimalValue s := by
  obtain ⟨c, cs, rfl⟩ := List.exists_cons_of_ne_nil hne
  have hc := hd c (List.mem_cons_self _ _)
  have hsp : isspace c = false := by
    cases hs : isspace c with
    | false => rfl
    | true =>
      exfalso
      simp only [isspace, Bool.or_eq_true, decide_eq_true_eq] at hs
      rcases hs with ((((rfl | rfl) | rfl) | rfl) | rfl) | rfl <;> revert hc <;> decide
  have hminus : c ≠ '-' := by rintro rfl; revert hc; decide
  have hplus : c ≠ '+' := by rintro rfl; revert hc; decide
  have hnf : numberField (c :: cs) = (false, c :: cs) := by
    unfold numberField
    split
    · rename_i heq; exact absurd (List.cons.inj heq).1 hminus
    · rename_i heq; exact absurd (List.cons.inj heq).1 hplus
    · rw [takeWhile_all _ _ hd]
  unfold extractUInt64
  rw [List.dropWhile_cons, hsp]
  simp only [Bool.false_eq_true, if_false]
  rw [hnf]
  simp only [if_neg (not_le.2 h64)]
  rfl

section
variable {σ Img G α : Type}

/-- C6. The time returned for a data line: when the line read by `loadDepth`
has two tokens and the first is `A.B`, with `A` and `B` non-empty strings of
decimal digits whose concatenation fits in 64 bits, `loadDepth` returns the
number written `AB` in decimal, that is `value(A) * 10 ^ len(B) + value(B)`. -/
theorem loadDepth_timestamp (P : Platform σ Img G α) (directory : Str) (fuel : Nat)
    (asFile asFile' : IStream) (depth img : Img) (line A B path : Str)
    (hg : getline asFile [] = (asFile', line))
    (ht : tokenize line = [A ++ '.' :: B, path])
    (hA : A ≠ []) (hB : B ≠ []) (hdA : ∀ c ∈ A, c.isDigit = true)
    (hdB : ∀ c ∈ B, c.isDigit = true) (h64 : decimalValue (A ++ B) < 2 ^ 64)
    (himg : P.LoadImage (directory ++ path) = some img) :
    loadDepth P directory (fuel + 1) asFile depth
      = .done (asFile', img, decimalValue A * 10 ^ B.length + decimalValue B) ∧
    decimalValue A * 10 ^ B.length + decimalValue B
      = Nat.ofDigits 10 (((A ++ B).map digitVal).reverse) ∧
    ∀ d ∈ (A ++ B).map digitVal, d < 10 := by
  have htt : tokenize (A ++ '.' :: B) ['.'] = [A, B] :=
    tokenize_two A B '.' hA hB (not_mem_of_digits _ _ (by decide) hdA)
      (not_mem_of_digits _ _ (by decide) hdB)
  have hdAB : ∀ c ∈ A ++ B, c.isDigit = true := by
    intro c hc
    rcases List.mem_append.1 hc with h | h
    · exact hdA c h
    · exact hdB c h
  have hl := loadDepth_record P directory fuel asFile asFile' depth img line _ _ A B []
    hg ht htt himg
  rw [extractUInt64_digits (A ++ B) (by simp [hA]) hdAB h64, decimalValue_append] at hl
  refine ⟨hl, ?_, ?_⟩
  · rw [← decimalValue_append, decimalValue_ofDigits]
  · intro d hd
    obtain ⟨c, hc, rfl⟩ := List.mem_map.1 hd
    exact digitVal_lt c (hdAB c hc)

end

/-! ## Examples -/

theorem threeFrames_valid {G : Type} (T : G) :
    ∀ f ∈ threeFrames, f.Valid (stubPlatform T) ['d', '/'] := by
  intro f hf
  simp only [threeFrames, List.mem_cons, List.mem_singleton, List.not_mem_nil, or_false] at hf
  rcases hf with rfl | rfl | rfl <;>
    exact ⟨by decide, by decide, by decide, by decide, by decide, by decide, by decide, rfl⟩

theorem threeFrames_text :
    manifestText true (threeFrames.map Frame.line) = "1.1 a\n2.2 b\n3.3 c\n".toList := by
  decide

/-- C1, witness: the three-frame manifest, two cycles. -/
theorem pose_chain_witness :
    ∃ st, main (stubPlatform (Multiplicative.ofAdd (1 : ℤ))) ['d'] none
        "1.1 a\n2.2 b\n3.3 c\n".toList 3 = .done st ∧
      st.cycles.length = 2 ∧
      ∀ n, ∀ hn : n + 1 < st.cycles.length,
        (st.cycles[n + 1]).T_wc_prev = (st.cycles[n]).T_wc_curr := by
  refine ⟨_, rfl, by decide, ?_⟩
  exact (pose_chain (stubPlatform (Multiplicative.ofAdd (1 : ℤ))) ['d'] none
    "1.1 a\n2.2 b\n3.3 c\n".toList 3 _ rfl).2.2.1

/-- C2. The code on the three-frame manifest without a newline after its
last line: the third frame is fetched (its image is in the observation
buffer and its time in `timestamp`), yet `main` leaves the loop before
aligning it: one record is written, not the two of the claim. -/
theorem missing_newline_drops_record :
    ∃ st, main (stubPlatform (Multiplicative.ofAdd (1 : ℤ))) ['d'] none
        "1.1 a\n2.2 b\n3.3 c".toList 3 = .done st ∧
      st.file.length = 1 ∧ st.file.length ≠ 3 - 1 ∧
      st.deref st.secondRaw = "d/c".toList ∧ st.timestamp = 33 ∧
      st.cycles.map (fun c => (c.model, c.obs)) = [("d/a".toList, "d/b".toList)] := by
  refine ⟨_, rfl, by decide, by decide, by decide, by decide, by decide⟩

/-- The three-frame manifest ending with a newline gives two records, with
the poses `T` and `T * T`. -/
theorem stub_trajectory_witness :
    (∀ f ∈ threeFrames, f.Valid (stubPlatform (Multiplicative.ofAdd (1 : ℤ))) ['d', '/']) ∧
    ∃ st, main (stubPlatform (Multiplicative.ofAdd (1 : ℤ))) ['d'] none
        "1.1 a\n2.2 b\n3.3 c\n".toList 3 = .done st ∧
      st.file.length = 2 ∧
      st.file.map Prod.snd
        = [Multiplicative.ofAdd (1 : ℤ), Multiplicative.ofAdd (1 : ℤ) * Multiplicative.ofAdd 1] := by
  refine ⟨threeFrames_valid _, ?_⟩
  obtain ⟨st, h, h1, h2⟩ := stub_trajectory (stubPlatform (Multiplicative.ofAdd (1 : ℤ)))
    (Multiplicative.ofAdd (1 : ℤ)) (fun _ _ _ _ => rfl) ['d'] ['d', '/'] rfl none
    threeFrames (threeFrames_valid _) (by decide) 3 (by decide)
  rw [threeFrames_text] at h
  have h1' : st.file.length = 2 := h1
  rw [h1'] at h2
  exact ⟨st, h, h1', by rw [h2]; rfl⟩

/-- C4, witness: a run with the sweep enabled. -/
theorem launch_config_witness :
    ∃ st, main (stubPlatform (Multiplicative.ofAdd (1 : ℤ))) ['d'] (some ['-', 'v'])
        "1.1 a\n2.2 b\n3.3 c\n".toList 3 = .done st ∧
      st.cycles.length = 2 ∧ InGrid st.threads ∧ InGrid st.blocks ∧
      ∀ c ∈ st.cycles, c.threads = st.threads ∧ c.blocks = st.blocks := by
  obtain ⟨st, h, hv⟩ := main_frames (stubPlatform (Multiplicative.ofAdd (1 : ℤ))) ['d']
    ['d', '/'] rfl (some ['-', 'v']) true threeFrames (threeFrames_valid _) (by decide) 3
    (by decide)
  rw [threeFrames_text] at h
  obtain ⟨h1, h2, h3, -⟩ := launch_config_in_grid _ _ _ _ _ _ h
  exact ⟨st, h, map_view_length _ _ hv, h1, h2, h3⟩

/-- C5, witness: when every candidate has the same mean latency, below the
initial best, the first candidate, 16 threads and 16 blocks, is kept. -/
theorem tuner_first_argmin_witness :
    ∃ st, main (stubPlatform (Multiplicative.ofAdd (1 : ℤ))) ['d'] (some ['-', 'v'])
        "1.1 a\n2.2 b\n3.3 c\n".toList 3 = .done st ∧
      (∃ e ∈ st.sweep, e.2.2 < (stubPlatform (Multiplicative.ofAdd (1 : ℤ))).fltMax) ∧
      st.sweep.length = 1024 ∧ st.threads = 16 ∧ st.blocks = 16 ∧ st.best = 1 := by
  obtain ⟨st, h, -⟩ := main_frames (stubPlatform (Multiplicative.ofAdd (1 : ℤ))) ['d']
    ['d', '/'] rfl (some ['-', 'v']) true threeFrames (threeFrames_valid _) (by decide) 3
    (by decide)
  rw [threeFrames_text] at h
  obtain ⟨s0, he, -, hs⟩ := main_spec _ _ _ _ _ _ h
  have hmean : ∀ e ∈ st.sweep, e.2.2 = 1 := by
    intro e hm
    rw [hs.2.2.2.2.2.1] at hm
    obtain ⟨c, m0, x, hx⟩ := he.sel.2.1 e hm
    exact hx
  obtain ⟨c1, -, c3, c4, c5, -⟩ := tuner_first_argmin _ _ _ _ _ h
  have hlen : st.sweep.length = 1024 := by
    rw [← candidates_length, ← c1, List.length_map]
  have hex : ∃ e ∈ st.sweep, e.2.2 < (stubPlatform (Multiplicative.ofAdd (1 : ℤ))).fltMax :=
    ⟨st.sweep[0], List.getElem_mem _, by rw [hmean _ (List.getElem_mem _)]; decide⟩
  obtain ⟨i, hi, h1, -, h3⟩ := c5 hex
  have hi0 : i = 0 := by
    by_contra hne
    have := h3 0 (by omega)
    rw [hmean _ (List.getElem_mem _)] at this
    have hb : st.best = 1 := by
      have := hmean _ (List.getElem_mem hi)
      rw [h1] at this
      exact this
    rw [hb] at this
    exact lt_irrefl _ this
  subst hi0
  have hl0 : 0 < (st.sweep.map fun e => (e.1, e.2.1)).length := by simp; omega
  have h0 : (st.sweep.map fun e => (e.1, e.2.1))[0] = (16, 16) := by
    simp only [c1]
    rfl
  rw [List.getElem_map, h1] at h0
  simp only [Prod.mk.injEq] at h0
  have hb : st.best = 1 := by
    have := hmean _ (List.getElem_mem hi)
    rw [h1] at this
    exact this
  exact ⟨st, h, hex, hlen, c3.trans h0.1, c4.trans h0.2, hb⟩

/-- C7, counterexample. Three frames with the times 11, 22 and 33: the second
cycle aligns the image of the third line as observation and writes the time
of that line, 33, not the time 22 of the observation of the first cycle. -/
theorem timestamp_lag_refuted :
    ∃ st, main (stubPlatform (Multiplicative.ofAdd (1 : ℤ))) ['d'] none
        "1.1 a\n2.2 b\n3.3 c\n".toList 3 = .done st ∧
      threeFrames.map Frame.time = [11, 22, 33] ∧
      st.cycles.map (fun c => c.obs) = [(threeFrames[1]).image, (threeFrames[2]).image] ∧
      st.file.map Prod.fst = [(threeFrames[1]).time, (threeFrames[2]).time] ∧
      (st.file[1]?).map Prod.fst = some 33 ∧ (st.file[1]?).map Prod.fst ≠ some 22 := by
  refine ⟨_, rfl, by decide, by decide, by decide, by decide, by decide⟩

/-- C7, witness: the two cycles of the three-frame manifest write the times of
the second and third line, next to the poses obtained with their images. -/
theorem timestamp_of_observation_witness :
    (∀ f ∈ threeFrames, f.Valid (stubPlatform (Multiplicative.ofAdd (1 : ℤ))) ['d', '/']) ∧
    ∃ st, main (stubPlatform (Multiplicative.ofAdd (1 : ℤ))) ['d'] none
        "1.1 a\n2.2 b\n3.3 c\n".toList 3 = .done st ∧
      st.cycles.length = 2 ∧
      st.cycles.map (fun c => c.obs) = ["d/b".toList, "d/c".toList] ∧
      st.file.map Prod.fst = [22, 33] := by
  refine ⟨threeFrames_valid _, ?_⟩
  obtain ⟨st, h, h1, -, h3, h4, -⟩ := timestamp_of_observation
    (stubPlatform (Multiplicative.ofAdd (1 : ℤ))) ['d'] ['d', '/'] rfl none true
    threeFrames (threeFrames_valid _) (by decide) 3 (by decide)
  rw [threeFrames_text] at h
  exact ⟨st, h, h1, h3.trans (by decide), h4.trans (by decide)⟩

/-- C8, witness: the two cycles of the three-frame manifest. -/
theorem double_buffer_witness :
    (∀ f ∈ threeFrames, f.Valid (stubPlatform (Multiplicative.ofAdd (1 : ℤ))) ['d', '/']) ∧
    ∃ st, main (stubPlatform (Multiplicative.ofAdd (1 : ℤ))) ['d'] none
        "1.1 a\n2.2 b\n3.3 c\n".toList 3 = .done st ∧
      st.cycles.length = 2 ∧
      st.cycles.map (fun c => c.model) = ["d/a".toList, "d/b".toList] ∧
      st.cycles.map (fun c => c.obs) = ["d/b".toList, "d/c".toList] ∧
      st.cycles.map (fun c => (c.modelSlot, c.obsSlot))
        = [(Slot.first, Slot.second), (Slot.second, Slot.first)] := by
  refine ⟨threeFrames_valid _, ?_⟩
  obtain ⟨-, st, h, h1, h2, h3⟩ := double_buffer_alternation
    (stubPlatform (Multiplicative.ofAdd (1 : ℤ))) ['d'] ['d', '/'] rfl none true
    threeFrames (threeFrames_valid _) (by decide) 3 (by decide)
  rw [threeFrames_text] at h
  have hst : main (stubPlatform (Multiplicative.ofAdd (1 : ℤ))) ['d'] none
      "1.1 a\n2.2 b\n3.3 c\n".toList 3 = .done _ := rfl
  have e := Outcome.done.inj (h.symm.trans hst)
  refine ⟨st, h, h1, h2.trans (by decide), h3.trans (by decide), ?_⟩
  rw [e]
  decide

/-- C6, witness: the token `1305031102.175304` is read as
`1305031102175304`. -/
theorem loadDepth_timestamp_witness :
    loadDepth (stubPlatform (Multiplicative.ofAdd (1 : ℤ))) ['d', '/'] 1
        (openFile "1305031102.175304 depth/1.png\n".toList) []
      = .done ({ rest := [], eofbit := false, failbit := false }, "d/depth/1.png".toList,
          1305031102175304) := by
  have h := (loadDepth_timestamp (stubPlatform (Multiplicative.ofAdd (1 : ℤ))) ['d', '/'] 0
    (openFile "1305031102.175304 depth/1.png\n".toList)
    { rest := [], eofbit := false, failbit := false } [] "d/depth/1.png".toList
    "1305031102.175304 depth/1.png".toList "1305031102".toList "175304".toList
    "depth/1.png".toList (by decide) (by decide) (by decide) (by decide) (by decide)
    (by decide) (by decide) rfl).1
  have e : decimalValue "1305031102".toList * 10 ^ "175304".toList.length
      + decimalValue "175304".toList = 1305031102175304 := by decide
  rw [h, e]

/-! ## Lines that are passed over -/

theorem closed_split (r : Str) (hc : Closed r) (hne : r ≠ []) :
    ∃ l r', '\n' ∉ l ∧ r = l ++ '\n' :: r' ∧ Closed r' := by
  induction r with
  | nil => exact absurd rfl hne
  | cons c cs ih =>
    have hlast : (c :: cs).getLast? = some '\n' := by
      rcases hc with h | h
      · exact absurd h hne
      · exact h
    by_cases hcn : c = '\n'
    · subst hcn
      refine ⟨[], cs, by simp, rfl, ?_⟩
      cases cs with
      | nil => exact Or.inl rfl
      | cons d ds =>
        right
        rw [List.getLast?_cons_cons] at hlast
        exact hlast
    · cases cs with
      | nil =>
        simp only [List.getLast?_singleton, Option.some.injEq] at hlast
        exact absurd hlast hcn
      | cons d ds =>
        rw [List.getLast?_cons_cons] at hlast
        obtain ⟨l, r', h1, h2, h3⟩ := ih (Or.inr hlast) (by simp)
        refine ⟨c :: l, r', ?_, by rw [h2]; rfl, h3⟩
        simp only [List.mem_cons, not_or]
        exact ⟨fun e => hcn e.symm, h1⟩

theorem loadDepthLoop_not_done_zero (asFile : IStream) (cur : Str) (r : IStream × List Str) :
    loadDepthLoop 0 asFile cur ≠ .done r := by
  simp [loadDepthLoop]

theorem sim_loadDepthLoop_fwd (line post : Str) (hline : '\n' ∉ line)
    (htok : 2 < (tokenize line).length) (f : Nat) (r cur : Str) (hc : Closed r)
    (sB : IStream) (toks : List Str)
    (h : loadDepthLoop f { rest := r ++ post, eofbit := false, failbit := false } cur
      = .done (sB, toks)) :
    ∃ sA, loadDepthLoop (f + 1)
        { rest := r ++ (line ++ '\n' :: post), eofbit := false, failbit := false } cur
        = .done (sA, toks) ∧ Sim line post sA sB := by
  induction f generalizing r cur with
  | zero => exact absurd h (loadDepthLoop_not_done_zero _ _ _)
  | succ n ih =>
    by_cases hr : r = []
    · subst hr
      refine ⟨sB, ?_, Or.inl rfl⟩
      rw [loadDepthLoop_succ, List.nil_append, getline_line line post cur hline,
        if_pos htok]
      rw [List.nil_append] at h
      show loadDepthLoop (n + 1) { rest := post, eofbit := false, failbit := false } line = _
      rw [loadDepthLoop_good (n + 1) { rest := post, eofbit := false, failbit := false } line cur
        rfl]
      exact h
    · obtain ⟨l, r', h1, rfl, h3⟩ := closed_split r hc hr
      rw [loadDepthLoop_succ] at h ⊢
      have e1 : (l ++ '\n' :: r') ++ post = l ++ '\n' :: (r' ++ post) := by simp
      have e2 : (l ++ '\n' :: r') ++ (line ++ '\n' :: post)
          = l ++ '\n' :: (r' ++ (line ++ '\n' :: post)) := by simp
      rw [e1, getline_line l _ cur h1] at h
      rw [e2, getline_line l _ cur h1]
      by_cases ht : (tokenize l).length > 2
      · rw [if_pos ht] at h ⊢
        exact ih r' l h3 h
      · rw [if_neg ht] at h ⊢
        simp only [Outcome.done.injEq, Prod.mk.injEq] at h
        obtain ⟨rfl, rfl⟩ := h
        exact ⟨_, rfl, Or.inr ⟨r', h3, rfl, rfl⟩⟩

theorem sim_loadDepthLoop_bwd (line post : Str) (hline : '\n' ∉ line)
    (htok : 2 < (tokenize line).length) (f : Nat) (r cur : Str) (hc : Closed r)
    (sA : IStream) (toks : List Str)
    (h : loadDepthLoop f
      { rest := r ++ (line ++ '\n' :: post), eofbit := false, failbit := false } cur
      = .done (sA, toks)) :
    ∃ sB, loadDepthLoop f { rest := r ++ post, eofbit := false, failbit := false } cur
        = .done (sB, toks) ∧ Sim line post sA sB := by
  induction f generalizing r cur with
  | zero => exact absurd h (loadDepthLoop_not_done_zero _ _ _)
  | succ n ih =>
    by_cases hr : r = []
    · subst hr
      refine ⟨sA, ?_, Or.inl rfl⟩
      rw [loadDepthLoop_succ, List.nil_append, getline_line line post cur hline,
        if_pos htok] at h
      rw [List.nil_append]
      have h' : loadDepthLoop n { rest := post, eofbit := false, failbit := false } line
          = .done (sA, toks) := h
      rw [loadDepthLoop_good n { rest := post, eofbit := false, failbit := false } line cur rfl]
        at h'
      replace h := h'
      exact loadDepthLoop_mono _ _ _ _ h
    · obtain ⟨l, r', h1, rfl, h3⟩ := closed_split r hc hr
      rw [loadDepthLoop_succ] at h ⊢
      have e1 : (l ++ '\n' :: r') ++ post = l ++ '\n' :: (r' ++ post) := by simp
      have e2 : (l ++ '\n' :: r') ++ (line ++ '\n' :: post)
          = l ++ '\n' :: (r' ++ (line ++ '\n' :: post)) := by simp
      rw [e2, getline_line l _ cur h1] at h
      rw [e1, getline_line l _ cur h1]
      by_cases ht : (tokenize l).length > 2
      · rw [if_pos ht] at h ⊢
        exact ih r' l h3 h
      · rw [if_neg ht] at h ⊢
        simp only [Outcome.done.injEq, Prod.mk.injEq] at h
        obtain ⟨rfl, rfl⟩ := h
        exact ⟨_, rfl, Or.inr ⟨r', h3, rfl, rfl⟩⟩

theorem sim_loop_fwd (line post : Str) (hline : '\n' ∉ line)
    (htok : 2 < (tokenize line).length) (f : Nat) (a b : IStream) (cur : Str)
    (hs : Sim line post a b) (sB : IStream) (toks : List Str)
    (h : loadDepthLoop f b cur = .done (sB, toks)) :
    ∃ sA, loadDepthLoop (f + 1) a cur = .done (sA, toks) ∧ Sim line post sA sB := by
  rcases hs with rfl | ⟨r, hc, rfl, rfl⟩
  · exact ⟨sB, loadDepthLoop_mono _ _ _ _ h, Or.inl rfl⟩
  · exact sim_loadDepthLoop_fwd line post hline htok f r cur hc sB toks h

theorem sim_loop_bwd (line post : Str) (hline : '\n' ∉ line)
    (htok : 2 < (tokenize line).length) (f : Nat) (a b : IStream) (cur : Str)
    (hs : Sim line post a b) (sA : IStream) (toks : List Str)
    (h : loadDepthLoop f a cur = .done (sA, toks)) :
    ∃ sB, loadDepthLoop f b cur = .done (sB, toks) ∧ Sim line post sA sB := by
  rcases hs with rfl | ⟨r, hc, rfl, rfl⟩
  · exact ⟨sA, h, Or.inl rfl⟩
  · exact sim_loadDepthLoop_bwd line post hline htok f r cur hc sA toks h

section
variable {σ Img G α : Type}

theorem loadDepth_done (P : Platform σ Img G α) (directory : Str) (f : Nat) (a s : IStream)
    (depth img : Img) (t : Nat) (h : loadDepth P directory f a depth = .done (s, img, t)) :
    ∃ toks, loadDepthLoop f a [] = .done (s, toks) ∧
      ∀ f1 a1 s1, loadDepthLoop f1 a1 [] = .done (s1, toks) →
        loadDepth P directory f1 a1 depth = .done (s1, img, t) := by
  unfold loadDepth at h
  rw [Outcome.bind_eq_done] at h
  obtain ⟨⟨s0, toks⟩, h1, h2⟩ := h
  have hs : s0 = s := by
    revert h2
    cases toks with
    | nil => simp; tauto
    | cons t0 ts =>
      cases ts with
      | nil => simp
      | cons t1 ts =>
        simp only
        cases P.LoadImage (directory ++ t1) with
        | none => simp
        | some raw =>
          simp only
          split
          · simp; tauto
          · simp
  subst hs
  refine ⟨toks, h1, ?_⟩
  intro f1 a1 s1 h3
  unfold loadDepth
  rw [h3]
  simp only [Outcome.bind]
  revert h2
  cases toks with
  | nil => simp
  | cons t0 ts =>
    cases ts with
    | nil => simp
    | cons t1 ts =>
      simp only
      cases P.LoadImage (directory ++ t1) with
      | none => simp
      | some raw =>
        simp only
        split <;> simp

theorem sim_loadDepth_fwd (P : Platform σ Img G α) (directory : Str) (line post : Str)
    (hline : '\n' ∉ line) (htok : 2 < (tokenize line).length) (f : Nat) (a b : IStream)
    (hs : Sim line post a b) (depth img : Img) (t : Nat) (sB : IStream)
    (h : loadDepth P directory f b depth = .done (sB, img, t)) :
    ∃ sA, loadDepth P directory (f + 1) a depth = .done (sA, img, t) ∧ Sim line post sA sB := by
  obtain ⟨toks, h1, h2⟩ := loadDepth_done P directory f b sB depth img t h
  obtain ⟨sA, h3, h4⟩ := sim_loop_fwd line post hline htok f a b [] hs sB toks h1
  exact ⟨sA, h2 _ _ _ h3, h4⟩

theorem sim_loadDepth_bwd (P : Platform σ Img G α) (directory : Str) (line post : Str)
    (hline : '\n' ∉ line) (htok : 2 < (tokenize line).length) (f : Nat) (a b : IStream)
    (hs : Sim line post a b) (depth img : Img) (t : Nat) (sA : IStream)
    (h : loadDepth P directory f a depth = .done (sA, img, t)) :
    ∃ sB, loadDepth P directory f b depth = .done (sB, img, t) ∧ Sim line post sA sB := by
  obtain ⟨toks, h1, h2⟩ := loadDepth_done P directory f a sA depth img t h
  obtain ⟨sB, h3, h4⟩ := sim_loop_bwd line post hline htok f a b [] hs sA toks h1
  exact ⟨sB, h2 _ _ _ h3, h4⟩

theorem sim_load_fwd (P : Platform σ Img G α) (directory : Str) (line post : Str)
    (hline : '\n' ∉ line) (htok : 2 < (tokenize line).length) (f : Nat) (a b : IStream)
    (hs : Sim line post a b) (st : MainState σ Img G α) (v : Slot)
    (r : IStream × MainState σ Img G α × Nat)
    (h : st.load P directory f b v = .done r) :
    ∃ sA, st.load P directory (f + 1) a v = .done (sA, r.2) ∧ Sim line post sA r.1 := by
  obtain ⟨h1, h2⟩ := load_done P directory f b st v r h
  obtain ⟨sA, h3, h4⟩ := sim_loadDepth_fwd P directory line post hline htok f a b hs _ _ _ _ h1
  refine ⟨sA, ?_, h4⟩
  rw [load_of_loadDepth P directory (f + 1) a sA st v _ _ h3, ← h2]

theorem sim_load_bwd (P : Platform σ Img G α) (directory : Str) (line post : Str)
    (hline : '\n' ∉ line) (htok : 2 < (tokenize line).length) (f : Nat) (a b : IStream)
    (hs : Sim line post a b) (st : MainState σ Img G α) (v : Slot)
    (r : IStream × MainState σ Img G α × Nat)
    (h : st.load P directory f a v = .done r) :
    ∃ sB, st.load P directory f b v = .done (sB, r.2) ∧ Sim line post r.1 sB := by
  obtain ⟨h1, h2⟩ := load_done P directory f a st v r h
  obtain ⟨sB, h3, h4⟩ := sim_loadDepth_bwd P directory line post hline htok f a b hs _ _ _ _ h1
  refine ⟨sB, ?_, h4⟩
  rw [load_of_loadDepth P directory f b sB st v _ _ h3, ← h2]

end

section
variable {σ Img G α : Type} [Group G]

theorem sim_cycle_fwd (P : Platform σ Img G α) (directory : Str) (line post : Str)
    (hline : '\n' ∉ line) (htok : 2 < (tokenize line).length) (f : Nat) (a b : IStream)
    (hs : Sim line post a b) (st : MainState σ Img G α) (r : IStream × MainState σ Img G α)
    (h : trackCycle P directory f b st = .done r) :
    ∃ sA, trackCycle P directory (f + 1) a st = .done (sA, r.2) ∧ Sim line post sA r.1 := by
  obtain ⟨img, t, h1, h2⟩ := trackCycle_done P directory f b st r h
  obtain ⟨sA, h3, h4⟩ := sim_loadDepth_fwd P directory line post hline htok f a b hs _ _ _ _ h2
  exact ⟨sA, by rw [trackCycle_of_loadDepth P directory (f + 1) a sA st img t h3, h1], h4⟩

theorem sim_cycle_bwd (P : Platform σ Img G α) (directory : Str) (line post : Str)
    (hline : '\n' ∉ line) (htok : 2 < (tokenize line).length) (f : Nat) (a b : IStream)
    (hs : Sim line post a b) (st : MainState σ Img G α) (r : IStream × MainState σ Img G α)
    (h : trackCycle P directory f a st = .done r) :
    ∃ sB, trackCycle P directory f b st = .done (sB, r.2) ∧ Sim line post r.1 sB := by
  obtain ⟨img, t, h1, h2⟩ := trackCycle_done P directory f a st r h
  obtain ⟨sB, h3, h4⟩ := sim_loadDepth_bwd P directory line post hline htok f a b hs _ _ _ _ h2
  exact ⟨sB, by rw [trackCycle_of_loadDepth P directory f b sB st img t h3, h1], h4⟩

theorem sim_eof (line post : Str) (a b : IStream) (hs : Sim line post a b) : a.eof = b.eof := by
  rcases hs with rfl | ⟨r, -, rfl, rfl⟩ <;> rfl

theorem sim_eof_eq (line post : Str) (a b : IStream) (hs : Sim line post a b)
    (he : b.eof = true) : a = b := by
  rcases hs with rfl | ⟨r, -, rfl, rfl⟩
  · rfl
  · simp [IStream.eof] at he

theorem sim_tracking_fwd (P : Platform σ Img G α) (directory : Str) (line post : Str)
    (hline : '\n' ∉ line) (htok : 2 < (tokenize line).length) (lf f : Nat) (a b : IStream)
    (hs : Sim line post a b) (st : MainState σ Img G α) (r : IStream × MainState σ Img G α)
    (h : trackingLoop P directory lf f b st = .done r) :
    trackingLoop P directory (lf + 1) f a st = .done r := by
  induction f generalizing a b st with
  | zero => simp [trackingLoop] at h
  | succ n ih =>
    rw [trackingLoop_succ] at h ⊢
    rw [sim_eof line post a b hs]
    by_cases he : b.eof = true
    · rw [he] at h ⊢
      rw [sim_eof_eq line post a b hs he]
      exact h
    · have he' : b.eof = false := by simpa using he
      rw [he'] at h ⊢
      simp only [Bool.not_false, if_true] at h ⊢
      rw [Outcome.bind_eq_done] at h ⊢
      obtain ⟨r1, h1, h2⟩ := h
      obtain ⟨sA, h3, h4⟩ := sim_cycle_fwd P directory line post hline htok lf a b hs st r1 h1
      exact ⟨(sA, r1.2), h3, ih sA r1.1 h4 r1.2 h2⟩

theorem sim_tracking_bwd (P : Platform σ Img G α) (directory : Str) (line post : Str)
    (hline : '\n' ∉ line) (htok : 2 < (tokenize line).length) (lf f : Nat) (a b : IStream)
    (hs : Sim line post a b) (st : MainState σ Img G α) (r : IStream × MainState σ Img G α)
    (h : trackingLoop P directory lf f a st = .done r) :
    trackingLoop P directory lf f b st = .done r := by
  induction f generalizing a b st with
  | zero => simp [trackingLoop] at h
  | succ n ih =>
    rw [trackingLoop_succ] at h ⊢
    rw [sim_eof line post a b hs] at h
    by_cases he : b.eof = true
    · rw [he] at h ⊢
      rw [sim_eof_eq line post a b hs he] at h
      exact h
    · have he' : b.eof = false := by simpa using he
      rw [he'] at h ⊢
      simp only [Bool.not_false, if_true] at h ⊢
      rw [Outcome.bind_eq_done] at h ⊢
      obtain ⟨r1, h1, h2⟩ := h
      obtain ⟨sB, h3, h4⟩ := sim_cycle_bwd P directory line post hline htok lf a b hs st r1 h1
      exact ⟨(sB, r1.2), h3, ih r1.1 sB h4 r1.2 h2⟩

theorem trackingLoop_mono (P : Platform σ Img G α) (directory : Str) (lf f : Nat)
    (a : IStream) (st : MainState σ Img G α) (r : IStream × MainState σ Img G α)
    (h : trackingLoop P directory lf f a st = .done r) :
    trackingLoop P directory lf (f + 1) a st = .done r := by
  induction f generalizing a st with
  | zero => simp [trackingLoop] at h
  | succ n ih =>
    rw [trackingLoop_succ] at h ⊢
    split at h
    · rename_i hc
      rw [if_pos hc]
      rw [Outcome.bind_eq_done] at h ⊢
      obtain ⟨r1, h1, h2⟩ := h
      exact ⟨r1, h1, ih _ _ h2⟩
    · rename_i hc
      rw [if_neg hc]; exact h

end

theorem loadDepthLoop_stuck (fuel : Nat) (s : IStream) (cur : Str) (hs : s.good = false)
    (ht : 2 < (tokenize cur).length) : loadDepthLoop fuel s cur = .outOfFuel := by
  induction fuel generalizing s with
  | zero => rfl
  | succ n ih =>
    rw [loadDepthLoop_succ, getline_not_good s cur hs, if_pos ht]
    apply ih
    simp [IStream.good]

section
variable {σ Img G α : Type} [Group G] [LinearOrder α]

theorem sim_before_fwd (P : Platform σ Img G α) (directory : Str) (argv2 : Option Str)
    (line post : Str) (hline : '\n' ∉ line) (htok : 2 < (tokenize line).length)
    (mA mB : Str) (hs : Sim line post (openFile mA) (openFile mB)) (f : Nat)
    (r : IStream × MainState σ Img G α)
    (h : beforeTracking P directory argv2 mB f = .done r) :
    ∃ sA, beforeTracking P directory argv2 mA (f + 1) = .done (sA, r.2) ∧
      Sim line post sA r.1 := by
  unfold beforeTracking at h ⊢
  rw [Outcome.bind_eq_done] at h
  obtain ⟨r1, h1, h⟩ := h
  rw [Outcome.bind_eq_done] at h
  obtain ⟨r2, h2, h⟩ := h
  simp only [Outcome.done.injEq] at h
  subst h
  obtain ⟨s1, g1, g2⟩ := sim_load_fwd P directory line post hline htok f _ _ hs _ _ r1 h1
  obtain ⟨s2, g3, g4⟩ := sim_load_fwd P directory line post hline htok f _ _ g2 _ _ r2 h2
  refine ⟨s2, ?_, g4⟩
  rw [g1]
  simp only [Outcome.bind]
  rw [g3]

theorem sim_before_bwd (P : Platform σ Img G α) (directory : Str) (argv2 : Option Str)
    (line post : Str) (hline : '\n' ∉ line) (htok : 2 < (tokenize line).length)
    (mA mB : Str) (hs : Sim line post (openFile mA) (openFile mB)) (f : Nat)
    (r : IStream × MainState σ Img G α)
    (h : beforeTracking P directory argv2 mA f = .done r) :
    ∃ sB, beforeTracking P directory argv2 mB f = .done (sB, r.2) ∧
      Sim line post r.1 sB := by
  unfold beforeTracking at h ⊢
  rw [Outcome.bind_eq_done] at h
  obtain ⟨r1, h1, h⟩ := h
  rw [Outcome.bind_eq_done] at h
  obtain ⟨r2, h2, h⟩ := h
  simp only [Outcome.done.injEq] at h
  subst h
  obtain ⟨s1, g1, g2⟩ := sim_load_bwd P directory line post hline htok f _ _ hs _ _ r1 h1
  obtain ⟨s2, g3, g4⟩ := sim_load_bwd P directory line post hline htok f _ _ g2 _ _ r2 h2
  refine ⟨s2, ?_, g4⟩
  rw [g1]
  simp only [Outcome.bind]
  rw [g3]

/-- C3 (amended). Lines of three tokens or more.  Such a line, followed by a
newline, is passed over by `loadDepth`, which goes on with the text after it;
and at the start of a line of the manifest it changes nothing in the run:
`main` finishes on the manifest with the line exactly when it finishes on
the manifest without it, with the same records and the same final state.  A
line without any token is not read as a record either: `loadDepth` returns 0
for it and leaves the buffer as it was. -/
theorem long_lines_skipped (P : Platform σ Img G α) (argv1 : Str) (argv2 : Option Str)
    (pre line post : Str) (hpre : pre = [] ∨ pre.getLast? = some '\n')
    (hline : '\n' ∉ line) (htok : 2 < (tokenize line).length) :
    (∀ directory fuel depth,
      loadDepth P directory (fuel + 1) (openFile (line ++ '\n' :: post)) depth
        = loadDepth P directory fuel (openFile post) depth) ∧
    (∀ st, (∃ fuel, main P argv1 argv2 (pre ++ (line ++ '\n' :: post)) fuel = .done st) ↔
      ∃ fuel, main P argv1 argv2 (pre ++ post) fuel = .done st) ∧
    (∀ directory fuel asFile asFile1 depth blank, getline asFile [] = (asFile1, blank) →
      tokenize blank = [] →
      loadDepth P directory (fuel + 1) asFile depth = .done (asFile1, depth, 0)) := by
  have hs : Sim line post (openFile (pre ++ (line ++ '\n' :: post))) (openFile (pre ++ post)) :=
    Or.inr ⟨pre, hpre, rfl, rfl⟩
  refine ⟨?_, ?_, ?_⟩
  · intro directory fuel depth
    unfold loadDepth
    rw [loadDepthLoop_succ]
    simp only [openFile]
    rw [getline_line line post [] hline, if_pos htok]
    show (loadDepthLoop fuel { rest := post, eofbit := false, failbit := false } line).bind _ = _
    rw [loadDepthLoop_good fuel { rest := post, eofbit := false, failbit := false } line [] rfl]
  · intro st
    constructor
    · rintro ⟨fuel, h⟩
      obtain ⟨d, r0, s, hd, h0, hr⟩ := (main_done P argv1 argv2 _ fuel st).1 h
      obtain ⟨sB, g1, g2⟩ := sim_before_bwd P d argv2 line post hline htok _ _ hs fuel r0 h0
      have g3 := sim_tracking_bwd P d line post hline htok fuel fuel _ _ g2 r0.2 (s, st) hr
      exact ⟨fuel, (main_done P argv1 argv2 _ fuel st).2 ⟨d, (sB, r0.2), s, hd, g1, g3⟩⟩
    · rintro ⟨fuel, h⟩
      obtain ⟨d, r0, s, hd, h0, hr⟩ := (main_done P argv1 argv2 _ fuel st).1 h
      obtain ⟨sA, g1, g2⟩ := sim_before_fwd P d argv2 line post hline htok _ _ hs fuel r0 h0
      have g3 := sim_tracking_fwd P d line post hline htok fuel fuel _ _ g2 r0.2 (s, st) hr
      have g4 := trackingLoop_mono P d (fuel + 1) fuel _ _ _ g3
      exact ⟨fuel + 1,
        (main_done P argv1 argv2 _ (fuel + 1) st).2 ⟨d, (sA, r0.2), s, hd, g1, g4⟩⟩
  · intro directory fuel asFile asFile1 depth blank hg ht
    exact loadDepth_blank P directory fuel asFile asFile1 depth blank hg ht

end

/-- C3, counterexample. An empty line is counted as a fetch: with it three
records are written, without it two.  A line of one token is read as a
record, and indexing its missing second token is undefined behaviour.  A
line of three tokens that ends the file without a newline is never passed:
`loadDepth` does not return, whatever the fuel. -/
theorem short_lines_not_skipped :
    (∃ st st1,
      main (stubPlatform (Multiplicative.ofAdd (1 : ℤ))) ['d'] none
        "1.1 a\n2.2 b\n\n3.3 c\n".toList 4 = .done st ∧
      main (stubPlatform (Multiplicative.ofAdd (1 : ℤ))) ['d'] none
        "1.1 a\n2.2 b\n3.3 c\n".toList 4 = .done st1 ∧
      (tokenize "".toList).length = 0 ∧
      st.file.length = 3 ∧ st1.file.length = 2) ∧
    ((tokenize "x".toList).length = 1 ∧
      main (stubPlatform (Multiplicative.ofAdd (1 : ℤ))) ['d'] none
        "1.1 a\n2.2 b\nx\n3.3 c\n".toList 4 = .undefined) ∧
    ((tokenize "# x y".toList).length = 3 ∧
      ∀ fuel, loadDepth (stubPlatform (Multiplicative.ofAdd (1 : ℤ))) ['d', '/'] fuel
        (openFile "# x y".toList) [] = .outOfFuel) := by
  refine ⟨⟨_, _, rfl, rfl, by decide, by decide, by decide⟩, ⟨by decide, rfl⟩, by decide, ?_⟩
  intro fuel
  cases fuel with
  | zero => rfl
  | succ n =>
    unfold loadDepth
    rw [loadDepthLoop_succ]
    have hg : getline (openFile "# x y".toList) []
        = ({ rest := [], eofbit := true, failbit := false }, "# x y".toList) := by decide
    rw [hg, if_pos (by decide)]
    show (loadDepthLoop n { rest := [], eofbit := true, failbit := false } "# x y".toList).bind _
      = _
    rw [loadDepthLoop_stuck n { rest := [], eofbit := true, failbit := false } "# x y".toList rfl
      (by decide)]
    rfl

/-- C3, witness: a comment line of four tokens between two data lines. -/
theorem long_lines_skipped_witness :
    (2 < (tokenize "# time path note".toList).length) ∧
    ∃ st, main (stubPlatform (Multiplicative.ofAdd (1 : ℤ))) ['d'] none
        ("1.1 a\n2.2 b\n".toList ++ ("# time path note".toList ++ '\n' :: "3.3 c\n".toList)) 4
        = .done st ∧
      (∃ fuel, main (stubPlatform (Multiplicative.ofAdd (1 : ℤ))) ['d'] none
        ("1.1 a\n2.2 b\n".toList ++ "3.3 c\n".toList) fuel = .done st) ∧
      st.file.length = 2 := by
  refine ⟨by decide, _, rfl, ?_, by decide⟩
  exact ((long_lines_skipped (stubPlatform (Multiplicative.ofAdd (1 : ℤ))) ['d'] none
    "1.1 a\n2.2 b\n".toList "# time path note".toList "3.3 c\n".toList
    (Or.inr (by decide)) (by decide) (by decide)).2.1 _).1 ⟨4, rfl⟩

theorem roundHalfEven_err (y : ℚ) : |(roundHalfEven y : ℚ) - y| ≤ 1 / 2 := by
  have h1 := Int.floor_le y
  have h2 := Int.lt_floor_add_one y
  unfold roundHalfEven
  split_ifs with a b c
  · rw [abs_le]; constructor <;> linarith
  · rw [abs_le]; push_cast; constructor <;> linarith
  · rw [abs_le]; constructor <;> linarith
  · rw [abs_le]; push_cast; constructor <;> linarith

theorem roundHalfEven_near (y : ℚ) (n : ℤ) (h : |y - n| < 1 / 2) : roundHalfEven y = n := by
  rw [abs_lt] at h
  obtain ⟨h1, h2⟩ := h
  by_cases hge : (n : ℚ) ≤ y
  · have hf : ⌊y⌋ = n := Int.floor_eq_iff.2 ⟨hge, by linarith⟩
    unfold roundHalfEven
    rw [hf, if_pos (by linarith)]
  · have hlt : y < n := not_le.1 hge
    have hf : ⌊y⌋ = n - 1 := Int.floor_eq_iff.2 ⟨by push_cast; linarith, by push_cast; linarith⟩
    unfold roundHalfEven
    rw [hf, if_neg (by push_cast; linarith), if_pos (by push_cast; linarith)]
    ring

theorem roundHalfEven_int (n : ℤ) : roundHalfEven (n : ℚ) = n :=
  roundHalfEven_near _ n (by simp)

/-- The double nearest to `x`, once the binary exponent `e` of `x` and the
rounded significand `m` are known. -/
theorem toDouble_eq (x : ℚ) (e m : ℤ) (h1 : (2 : ℚ) ^ e ≤ x) (h2 : x < 2 ^ (e + 1))
    (hm : |x / 2 ^ (e - 52) - m| < 1 / 2) : toDouble x = m * 2 ^ (e - 52) := by
  have hx : 0 < x := lt_of_lt_of_le (zpow_pos (by norm_num) e) h1
  have he : Int.log 2 x = e := by
    have a1 : e ≤ Int.log 2 x := (Int.zpow_le_iff_le_log (by norm_num) hx).1 (by exact_mod_cast h1)
    have a2 : Int.log 2 x < e + 1 :=
      (Int.lt_zpow_iff_log_lt (by norm_num) hx).1 (by exact_mod_cast h2)
    omega
  unfold toDouble
  rw [if_neg (ne_of_gt hx), he, roundHalfEven_near _ m hm]

/-- A natural number below `2 ^ 53` is a `double`. -/
theorem toDouble_nat (n : Nat) (h : n < 2 ^ 53) : toDouble (n : ℚ) = n := by
  by_cases h0 : n = 0
  · subst h0; simp [toDouble]
  have hx : (0 : ℚ) < n := by exact_mod_cast Nat.pos_of_ne_zero h0
  have hlog : Int.log 2 (n : ℚ) < 53 := by
    apply (Int.lt_zpow_iff_log_lt (by norm_num) hx).1
    exact_mod_cast h
  obtain ⟨k, hk⟩ : ∃ k : ℕ, (k : ℤ) = 52 - Int.log 2 (n : ℚ) := ⟨(52 - Int.log 2 (n : ℚ)).toNat, by omega⟩
  have hq : (2 : ℚ) ^ (Int.log 2 (n : ℚ) - 52) = ((2 : ℚ) ^ k)⁻¹ := by
    rw [show Int.log 2 (n : ℚ) - 52 = -(k : ℤ) by omega, zpow_neg, zpow_natCast]
  have hp : (0 : ℚ) < 2 ^ k := by positivity
  unfold toDouble
  rw [if_neg (ne_of_gt hx), hq]
  have : (n : ℚ) / ((2 : ℚ) ^ k)⁻¹ = (((n * 2 ^ k : ℕ) : ℤ) : ℚ) := by
    push_cast
    field_simp
  rw [this, roundHalfEven_int]
  push_cast
  field_simp

/-- Below `2 ^ 33` a number and the double nearest to it differ by `2 ^ (-21)`
at most. -/
theorem toDouble_err (x : ℚ) (hx : 0 < x) (h : x < 2 ^ 33) :
    |toDouble x - x| ≤ 1 / 2 ^ 21 := by
  have hlog : Int.log 2 x < 33 := by
    apply (Int.lt_zpow_iff_log_lt (by norm_num) hx).1
    exact_mod_cast h
  have hq0 : (0 : ℚ) < 2 ^ (Int.log 2 x - 52) := zpow_pos (by norm_num) _
  have hq : (2 : ℚ) ^ (Int.log 2 x - 52) ≤ 1 / 2 ^ 20 := by
    have : (2 : ℚ) ^ (Int.log 2 x - 52) ≤ 2 ^ (-20 : ℤ) :=
      zpow_le_zpow_right₀ (by norm_num) (by omega)
    refine this.trans (le_of_eq ?_)
    norm_num
  have hr := roundHalfEven_err (x / 2 ^ (Int.log 2 x - 52))
  unfold toDouble
  rw [if_neg (ne_of_gt hx)]
  have e : (roundHalfEven (x / 2 ^ (Int.log 2 x - 52)) : ℚ) * 2 ^ (Int.log 2 x - 52) - x
      = ((roundHalfEven (x / 2 ^ (Int.log 2 x - 52)) : ℚ) - x / 2 ^ (Int.log 2 x - 52))
        * 2 ^ (Int.log 2 x - 52) := by
    field_simp
  rw [e, abs_mul, abs_of_pos hq0]
  calc |(roundHalfEven (x / 2 ^ (Int.log 2 x - 52)) : ℚ) - x / 2 ^ (Int.log 2 x - 52)|
        * 2 ^ (Int.log 2 x - 52)
      ≤ 1 / 2 * (1 / 2 ^ 20) := mul_le_mul hr hq (le_of_lt hq0) (by norm_num)
    _ = 1 / 2 ^ 21 := by norm_num

/-- The seconds printed for a time below `2 ^ 33` seconds are the time divided
by `10 ^ 6`, exactly. -/
theorem outputSeconds_exact (t : Nat) (h : t < 2 ^ 33 * 10 ^ 6) :
    outputSeconds t = (t : ℚ) / 10 ^ 6 := by
  have h53 : t < 2 ^ 53 := lt_trans h (by norm_num)
  unfold outputSeconds
  rw [toDouble_nat t h53]
  by_cases h0 : t = 0
  · subst h0
    simp [toDouble, roundHalfEven_int]
    exact roundHalfEven_int 0
  have hx : (0 : ℚ) < (t : ℚ) / 1000000 := by
    have : (0 : ℚ) < t := by exact_mod_cast Nat.pos_of_ne_zero h0
    positivity
  have hlt : (t : ℚ) / 1000000 < 2 ^ 33 := by
    rw [div_lt_iff₀ (by norm_num)]
    have : (t : ℚ) < 2 ^ 33 * 10 ^ 6 := by exact_mod_cast h
    linarith
  have herr := toDouble_err _ hx hlt
  have hnear : |toDouble ((t : ℚ) / 1000000) * 10 ^ 6 - ((t : ℕ) : ℤ)| < 1 / 2 := by
    have e : toDouble ((t : ℚ) / 1000000) * 10 ^ 6 - (((t : ℕ) : ℤ) : ℚ)
        = (toDouble ((t : ℚ) / 1000000) - (t : ℚ) / 1000000) * 10 ^ 6 := by
      push_cast; ring
    rw [e, abs_mul, abs_of_pos (by norm_num : (0 : ℚ) < 10 ^ 6)]
    calc |toDouble ((t : ℚ) / 1000000) - (t : ℚ) / 1000000| * 10 ^ 6
        ≤ 1 / 2 ^ 21 * 10 ^ 6 := mul_le_mul_of_nonneg_right herr (by norm_num)
      _ < 1 / 2 := by norm_num
  rw [roundHalfEven_near _ _ hnear]
  push_cast
  rfl

theorem outputSeconds_above : outputSeconds 8589934592000001 = 8589934592000002 / 10 ^ 6 := by
  have h1 : toDouble ((8589934592000001 : ℕ) : ℚ) = (8589934592000001 : ℕ) :=
    toDouble_nat _ (by norm_num)
  have h2 : toDouble (((8589934592000001 : ℕ) : ℚ) / 1000000)
      = ((4503599627370497 : ℤ) : ℚ) * 2 ^ ((33 : ℤ) - 52) := by
    apply toDouble_eq
    · norm_num
    · norm_num
    · rw [abs_lt]; norm_num [zpow_neg]
  unfold outputSeconds
  rw [h1, h2, roundHalfEven_near _ 8589934592000002 (by rw [abs_lt]; norm_num [zpow_neg])]
  norm_num

theorem outputSeconds_max : outputSeconds (2 ^ 64 - 1) = 18446744073709550781 / 10 ^ 6 := by
  have h1 : toDouble (((2 ^ 64 - 1 : ℕ) : ℕ) : ℚ) = ((2 ^ 53 : ℤ) : ℚ) * 2 ^ ((63 : ℤ) - 52) := by
    apply toDouble_eq
    · norm_num
    · norm_num
    · rw [abs_lt]; norm_num
  have h2 : toDouble (((2 ^ 53 : ℤ) : ℚ) * 2 ^ ((63 : ℤ) - 52) / 1000000)
      = ((4722366482869645 : ℤ) : ℚ) * 2 ^ ((44 : ℤ) - 52) := by
    apply toDouble_eq
    · norm_num
    · norm_num
    · rw [abs_lt]; norm_num [zpow_neg]
  unfold outputSeconds
  rw [h1, h2, roundHalfEven_near _ 18446744073709550781 (by rw [abs_lt]; norm_num [zpow_neg])]
  norm_num

section
variable {σ Img G α : Type}

/-- C10 (amended). Time stamp round trip, with the `double` arithmetic of
line 82.  When the line read by `loadDepth` has two tokens and the first is
`A.B`, with `A` and `B` non-empty strings of decimal digits, `d = len(B)`,
and the number written `AB` is below `2 ^ 33 * 10 ^ 6` (the seconds written
are below `2 ^ 33`), the seconds printed for the returned time are the value
of `A.B` times `10 ^ (d - 6)`; they equal the value of `A.B` when `d = 6`,
and for a non-zero value only then. -/
theorem seconds_round_trip (P : Platform σ Img G α) (directory : Str) (fuel : Nat)
    (asFile asFile' : IStream) (depth img : Img) (line A B path : Str)
    (hg : getline asFile [] = (asFile', line))
    (ht : tokenize line = [A ++ '.' :: B, path])
    (hA : A ≠ []) (hB : B ≠ []) (hdA : ∀ c ∈ A, c.isDigit = true)
    (hdB : ∀ c ∈ B, c.isDigit = true) (hsmall : decimalValue (A ++ B) < 2 ^ 33 * 10 ^ 6)
    (himg : P.LoadImage (directory ++ path) = some img) :
    ∃ t, loadDepth P directory (fuel + 1) asFile depth = .done (asFile', img, t) ∧
      outputSeconds t
        = ((decimalValue A : ℚ) + (decimalValue B : ℚ) / 10 ^ B.length)
          * 10 ^ ((B.length : ℤ) - 6) ∧
      (B.length = 6 →
        outputSeconds t = (decimalValue A : ℚ) + (decimalValue B : ℚ) / 10 ^ B.length) ∧
      ((decimalValue A : ℚ) + (decimalValue B : ℚ) / 10 ^ B.length ≠ 0 →
        outputSeconds t = (decimalValue A : ℚ) + (decimalValue B : ℚ) / 10 ^ B.length →
        B.length = 6) := by
  have h64 : decimalValue (A ++ B) < 2 ^ 64 := lt_trans hsmall (by norm_num)
  have htt : tokenize (A ++ '.' :: B) ['.'] = [A, B] :=
    tokenize_two A B '.' hA hB (not_mem_of_digits _ _ (by decide) hdA)
      (not_mem_of_digits _ _ (by decide) hdB)
  have hdAB : ∀ c ∈ A ++ B, c.isDigit = true := by
    intro c hc
    rcases List.mem_append.1 hc with h | h
    · exact hdA c h
    · exact hdB c h
  have hl := loadDepth_record P directory fuel asFile asFile' depth img line _ _ A B []
    hg ht htt himg
  rw [extractUInt64_digits (A ++ B) (by simp [hA]) hdAB h64, decimalValue_append] at hl
  rw [decimalValue_append] at hsmall
  have h10 : (10 : ℚ) ≠ 0 := by norm_num
  have key : outputSeconds (decimalValue A * 10 ^ B.length + decimalValue B)
      = ((decimalValue A : ℚ) + (decimalValue B : ℚ) / 10 ^ B.length)
        * 10 ^ ((B.length : ℤ) - 6) := by
    rw [outputSeconds_exact _ hsmall, zpow_sub₀ h10, zpow_natCast]
    push_cast
    field_simp
    exact Or.inl (by norm_num)
  refine ⟨_, hl, key, ?_, ?_⟩
  · intro h6
    rw [key, h6]
    norm_num
  · intro hv hs
    rw [key] at hs
    have h1 : (10 : ℚ) ^ ((B.length : ℤ) - 6) = 1 := by
      have := mul_left_cancel₀ hv (hs.trans (mul_one _).symm)
      exact this
    have h2 : (B.length : ℤ) - 6 = 0 := by
      by_contra hne
      have hlt : (1 : ℚ) < 10 := by norm_num
      rcases lt_or_gt_of_ne hne with h | h
      · have := zpow_lt_one_of_neg₀ hlt h
        rw [h1] at this
        exact lt_irrefl _ this
      · have := one_lt_zpow₀ hlt h
        rw [h1] at this
        exact lt_irrefl _ this
    omega

end

/-- C10, witness: the token `1305031102.175304` is written back as
`1305031102.175304` seconds. -/
theorem seconds_round_trip_witness :
    ∃ t, loadDepth (stubPlatform (Multiplicative.ofAdd (1 : ℤ))) ['d', '/'] 1
        (openFile "1305031102.175304 depth/1.png\n".toList) []
      = .done ({ rest := [], eofbit := false, failbit := false }, "d/depth/1.png".toList, t) ∧
      outputSeconds t = (1305031102 : ℚ) + 175304 / 10 ^ 6 := by
  obtain ⟨t, h1, -, h3, -⟩ := seconds_round_trip
    (stubPlatform (Multiplicative.ofAdd (1 : ℤ))) ['d', '/'] 0
    (openFile "1305031102.175304 depth/1.png\n".toList)
    { rest := [], eofbit := false, failbit := false } [] "d/depth/1.png".toList
    "1305031102.175304 depth/1.png".toList "1305031102".toList "175304".toList
    "depth/1.png".toList (by decide) (by decide) (by decide) (by decide) (by decide)
    (by decide) (by decide) rfl
  refine ⟨t, h1, ?_⟩
  rw [h3 (by decide)]
  have e1 : decimalValue "1305031102".toList = 1305031102 := by decide
  have e2 : decimalValue "175304".toList = 175304 := by decide
  have e3 : "175304".toList.length = 6 := by decide
  rw [e1, e2, e3]
  norm_num

/-- C10, counterexample. The token `8589934592.000001` has six fractional
digits and its digits fit in 64 bits, but from `2 ^ 33` seconds on the
doubles are more than a microsecond apart: the quotient by `1000000.0` is
rounded up and `8589934592.000002` is printed.  The digits of the token
`18446744073710.000000` do not fit in 64 bits: the extraction stores the
largest 64-bit value, which is printed as `18446744073709.550781`. -/
theorem seconds_round_trip_refuted :
    (∃ s img t, loadDepth (stubPlatform (Multiplicative.ofAdd (1 : ℤ))) ['d', '/'] 1
        (openFile "8589934592.000001 a\n".toList) [] = .done (s, img, t) ∧
      decimalValue ("8589934592".toList ++ "000001".toList) < 2 ^ 64 ∧
      "000001".toList.length = 6 ∧
      outputSeconds t = 8589934592000002 / 10 ^ 6 ∧
      outputSeconds t ≠ (decimalValue "8589934592".toList : ℚ)
        + (decimalValue "000001".toList : ℚ) / 10 ^ "000001".toList.length) ∧
    (∃ s img t, loadDepth (stubPlatform (Multiplicative.ofAdd (1 : ℤ))) ['d', '/'] 1
        (openFile "18446744073710.000000 a\n".toList) [] = .done (s, img, t) ∧
      "000000".toList.length = 6 ∧
      outputSeconds t = 18446744073709550781 / 10 ^ 6 ∧
      outputSeconds t ≠ (decimalValue "18446744073710".toList : ℚ)
        + (decimalValue "000000".toList : ℚ) / 10 ^ "000000".toList.length) := by
  constructor
  · refine ⟨{ rest := [], eofbit := false, failbit := false }, "d/a".toList, 8589934592000001,
      rfl, by decide, by decide, outputSeconds_above, ?_⟩
    have e1 : decimalValue "8589934592".toList = 8589934592 := by decide
    have e2 : decimalValue "000001".toList = 1 := by decide
    have e3 : "000001".toList.length = 6 := by decide
    rw [outputSeconds_above, e1, e2, e3]
    norm_num
  · refine ⟨{ rest := [], eofbit := false, failbit := false }, "d/a".toList, 2 ^ 64 - 1,
      rfl, by decide, outputSeconds_max, ?_⟩
    have e1 : decimalValue "18446744073710".toList = 18446744073710 := by decide
    have e2 : decimalValue "000000".toList = 0 := by decide
    have e3 : "000000".toList.length = 6 := by decide
    rw [outputSeconds_max, e1, e2, e3]
    norm_num

section
variable {σ Img G α : Type} [Group G]

theorem alignStep_call (P : Platform σ Img G α) (s : MainState σ Img G α) :
    (alignStep P s).1.icpOdom
      = (P.getIncrementalTransformation (primedICP P s) 1 s.threads s.blocks).1 ∧
    (alignStep P s).2.T_prev_curr
      = (P.getIncrementalTransformation (primedICP P s) 1 s.threads s.blocks).2 ∧
    (alignStep P s).1.T_wc_curr
      = s.T_wc_curr * (P.getIncrementalTransformation (primedICP P s) 1 s.threads s.blocks).2 ∧
    (alignStep P s).1.tuneCalls = s.tuneCalls ∧ (alignStep P s).1.cycles = s.cycles := by
  simp [alignStep, primedICP]

theorem alignStep_log (P : Platform σ Img G α) (log : σ → List G) (hr : Records P log)
    (s : MainState σ Img G α) : log (alignStep P s).1.icpOdom = log s.icpOdom ++ [1] := by
  rw [(alignStep_call P s).1, hr.call, primedICP, hr.obs, hr.model]

theorem replicate_succ_one (n : Nat) :
    List.replicate n (1 : G) ++ [1] = List.replicate (n + 1) 1 := by
  rw [List.replicate_succ']

theorem tuneRep_logInv (P : Platform σ Img G α) (log : σ → List G) (hr : Records P log)
    (s : MainState σ Img G α) (h : LogInv log s) : LogInv log (tuneRep P s) := by
  obtain ⟨-, -, -, a4, a5⟩ := alignStep_call P s
  have hl := alignStep_log P log hr s
  unfold LogInv at h ⊢
  show log (alignStep P s).1.icpOdom
    = List.replicate (((alignStep P s).1.tuneCalls ++ [(alignStep P s).2]).length
      + (alignStep P s).1.cycles.length) 1
  rw [hl, h, a4, a5, replicate_succ_one, List.length_append]
  congr 1
  simp only [List.length_singleton]
  omega

theorem nextState_logInv (P : Platform σ Img G α) (log : σ → List G) (hr : Records P log)
    (s : MainState σ Img G α) (img : Img) (t : Nat) (h : LogInv log s) :
    LogInv log (nextState P s img t) := by
  obtain ⟨-, -, -, a4, a5⟩ := alignStep_call P s
  have hl := alignStep_log P log hr s
  have hc := nextState_cycles P s img t
  have e1 : (nextState P s img t).icpOdom = (alignStep P s).1.icpOdom := by
    unfold nextState
    cases (trackStep P s).secondRaw <;> rfl
  have e2 : (nextState P s img t).tuneCalls = s.tuneCalls := by
    unfold nextState
    cases (trackStep P s).secondRaw <;> exact a4
  unfold LogInv at h ⊢
  rw [e1, e2, hc, hl, h, replicate_succ_one, List.length_append]
  congr 1

end

section
variable {σ Img G α : Type} [Group G] [LinearOrder α]

theorem tuneCandidate_logInv (P : Platform σ Img G α) (log : σ → List G) (hr : Records P log)
    (b : Nat) (s : MainState σ Img G α) (h : LogInv log s) :
    LogInv log (tuneCandidate P b s) := by
  unfold tuneCandidate
  simp only [forLoop_five]
  have h0 : LogInv log ({ s with blocks := b, mean := P.zero, count := 0 }) := h
  have h5 := tuneRep_logInv P log hr _ (tuneRep_logInv P log hr _ (tuneRep_logInv P log hr _
    (tuneRep_logInv P log hr _ (tuneRep_logInv P log hr _ h0))))
  split
  · exact h5
  · exact h5

theorem tune_logInv (P : Platform σ Img G α) (log : σ → List G) (hr : Records P log)
    (s : MainState σ Img G α) (h : LogInv log s) : LogInv log (tune P s) := by
  rw [tune_eq_foldl]
  refine foldl_invariant (LogInv log) _ gridValues s ?_ h
  intro s1 t _ h1
  refine foldl_invariant (LogInv log) _ gridValues _ ?_ h1
  intro s2 b _ h2
  exact tuneCandidate_logInv P log hr b s2 h2

theorem tuningBlock_logInv (P : Platform σ Img G α) (log : σ → List G) (hr : Records P log)
    (argv2 : Option Str) (s : MainState σ Img G α) (h : LogInv log s) :
    LogInv log (tuningBlock P argv2 s) := by
  unfold tuningBlock
  have h1 : LogInv log ({ s with
      mean := P.fltMax, count := 0, threads := 224, blocks := 96,
      bestThreads := 224, bestBlocks := 96, best := P.fltMax } : MainState σ Img G α) := h
  generalize ({ s with
      mean := P.fltMax, count := 0, threads := 224, blocks := 96,
      bestThreads := 224, bestBlocks := 96, best := P.fltMax } : MainState σ Img G α) = s1 at h1
  by_cases hv : argv2 = some ['-', 'v']
  · simp only [if_pos hv]
    have h2 := tune_logInv P log hr s1 h1
    generalize tune P s1 = s2 at h2
    exact h2
  · simp only [if_neg hv]
    exact h1

omit [LinearOrder α] in
theorem store_logInv (log : σ → List G) (s : MainState σ Img G α) (v : Slot) (img : Img)
    (h : LogInv log s) : LogInv log (s.store v img) := by
  cases v <;> exact h

theorem main_logInv (P : Platform σ Img G α) (log : σ → List G) (hr : Records P log)
    (argv1 : Str) (argv2 : Option Str) (manifest : Str) (fuel : Nat)
    (st : MainState σ Img G α) (h : main P argv1 argv2 manifest fuel = .done st) :
    LogInv log st := by
  obtain ⟨d, r0, s, -, h0, hr0⟩ := (main_done P argv1 argv2 manifest fuel st).1 h
  have hentry : LogInv log r0.2 := by
    unfold beforeTracking at h0
    rw [Outcome.bind_eq_done] at h0
    obtain ⟨r1, h1, h0⟩ := h0
    rw [Outcome.bind_eq_done] at h0
    obtain ⟨r2, h2, h0⟩ := h0
    simp only [Outcome.done.injEq] at h0
    subst h0
    obtain ⟨-, e1⟩ := load_done P d fuel _ _ _ r1 h1
    obtain ⟨-, e2⟩ := load_done P d fuel _ _ _ r2 h2
    have i0 : LogInv log (initState P) := hr.start
    have i1 : LogInv log r1.2.1 := e1 ▸ store_logInv log _ _ _ i0
    have i2 : LogInv log r2.2.1 := e2 ▸ store_logInv log _ _ _ i1
    exact tuningBlock_logInv P log hr argv2 _ i2
  exact trackingLoop_invariant P d fuel (LogInv log)
    (fun st img t hh => nextState_logInv P log hr st img t hh) fuel r0.1 r0.2 (s, st) hentry hr0

omit [Group G] [LinearOrder α] in
theorem recording_records (P : Platform σ Img G α) : Records (recording P) Prod.snd :=
  ⟨rfl, fun _ _ => rfl, fun _ _ => rfl, fun _ _ _ _ => rfl⟩

/-- C9. The guess handed to the alignment primitive is the identity in every
tracking cycle and in every repetition of the sweep.  A repetition and a
cycle each leave the `ICPOdometry` object and the pose as the primitive
returns them when called, after the two `init` calls, on the identity and
the current launch configuration: the guess `T_wc_prev⁻¹ * T_wc_curr` is
computed right after `T_wc_prev = T_wc_curr`.  In a run that finishes, the
transform of every cycle is the value of the primitive at the identity, and
whenever the state of the primitive keeps the list of the guesses it is
called with, that list ends up holding the identity once for each of the
repetitions (5120 with `-v`, none otherwise) and once for each record
written, and nothing else. -/
theorem initial_guess_identity (P : Platform σ Img G α) (argv1 : Str) (argv2 : Option Str)
    (manifest : Str) (fuel : Nat) (st : MainState σ Img G α)
    (h : main P argv1 argv2 manifest fuel = .done st) :
    (∀ c ∈ st.cycles, c.guess = 1) ∧ (∀ c ∈ st.tuneCalls, c.guess = 1) ∧
    st.tuneCalls.length = (if argv2 = some ['-', 'v'] then 5120 else 0) ∧
    (∀ s : MainState σ Img G α, (alignStep P s).2.guess = s.T_wc_curr⁻¹ * s.T_wc_curr ∧
      (alignStep P s).2.guess = 1) ∧
    (∀ (s : MainState σ Img G α) (img : Img) (t : Nat),
      (tuneRep P s).icpOdom
        = (P.getIncrementalTransformation (primedICP P s) 1 s.threads s.blocks).1 ∧
      (tuneRep P s).T_wc_curr
        = s.T_wc_curr * (P.getIncrementalTransformation (primedICP P s) 1 s.threads s.blocks).2 ∧
      (nextState P s img t).icpOdom
        = (P.getIncrementalTransformation (primedICP P s) 1 s.threads s.blocks).1 ∧
      (nextState P s img t).T_wc_curr
        = s.T_wc_curr
          * (P.getIncrementalTransformation (primedICP P s) 1 s.threads s.blocks).2) ∧
    (∀ c ∈ st.cycles,
      ∃ s, c.T_prev_curr = (P.getIncrementalTransformation s 1 c.threads c.blocks).2) ∧
    st.file.length = st.cycles.length ∧
    (∀ log : σ → List G, Records P log →
      log st.icpOdom = List.replicate (st.tuneCalls.length + st.file.length) 1) := by
  obtain ⟨s0, he, hinv, hs⟩ := main_spec P argv1 argv2 manifest fuel st h
  obtain ⟨e1, e2, e3, e4, e5, e6, e7⟩ := hs
  have hfile := file_length P st hinv
  refine ⟨hinv.guess, ?_, ?_, fun s => ⟨rfl, alignStep_guess P s⟩, ?_, ?_, hfile, ?_⟩
  · rw [e7]; exact he.calls.2
  · rw [e7, he.calls.1]
    by_cases hv : argv2 = some ['-', 'v'] <;> simp [hv]
  · intro s img t
    obtain ⟨a1, -, a3, -, -⟩ := alignStep_call P s
    refine ⟨a1, a3, ?_, ?_⟩
    · unfold nextState
      cases (trackStep P s).secondRaw <;> exact a1
    · unfold nextState
      cases (trackStep P s).secondRaw <;> exact a3
  · intro c hc
    obtain ⟨-, s, h2⟩ := hinv.step c hc
    rw [hinv.guess c hc] at h2
    exact ⟨s, h2⟩
  · intro log hr
    rw [hfile]
    exact main_logInv P log hr argv1 argv2 manifest fuel st h

end

theorem threeFrames_valid_recording {G : Type} (T : G) :
    ∀ f ∈ threeFrames, f.Valid (recording (stubPlatform T)) ['d', '/'] :=
  threeFrames_valid T

/-- C9, witness: a run with the sweep enabled on a primitive that records
the guesses it is called with: 5120 repetitions and two cycles, and the
primitive has received the identity 5122 times. -/
theorem initial_guess_witness :
    ∃ st, main (recording (stubPlatform (Multiplicative.ofAdd (1 : ℤ)))) ['d']
        (some ['-', 'v']) "1.1 a\n2.2 b\n3.3 c\n".toList 3 = .done st ∧
      st.cycles.length = 2 ∧ st.file.length = 2 ∧ st.tuneCalls.length = 5120 ∧
      (∀ c ∈ st.cycles, c.guess = 1) ∧ (∀ c ∈ st.tuneCalls, c.guess = 1) ∧
      st.icpOdom.2 = List.replicate 5122 1 := by
  obtain ⟨st, h, hv⟩ := main_frames (recording (stubPlatform (Multiplicative.ofAdd (1 : ℤ))))
    ['d'] ['d', '/'] rfl (some ['-', 'v']) true threeFrames (threeFrames_valid_recording _)
    (by decide) 3 (by decide)
  rw [threeFrames_text] at h
  obtain ⟨h1, h2, h3, -, -, -, h7, h8⟩ := initial_guess_identity _ _ _ _ _ _ h
  have hc : st.cycles.length = 2 := map_view_length _ _ hv
  have h3' : st.tuneCalls.length = 5120 := h3
  refine ⟨st, h, hc, h7.trans hc, h3', h1, h2, ?_⟩
  have := h8 Prod.snd (recording_records _)
  rw [h3', h7, hc] at this
  exact this

end ICPCUDA
